import Mathlib

/-! # logfmt decoder (`decode.go`): a shallow embedding and its verified properties

The Go type `Decoder` becomes a Lean structure and its methods become pure
functions that return the updated decoder next to the Go result.

* A Go `[]byte` that may be `nil` is an `Option (List Nat)`; `none` is `nil`.
* A byte is a natural number (the comparisons of the code never overflow).
* The Go `int` counters of the decoder (`pos`, `lineNum`) are natural numbers:
  they only ever grow by one step per byte or per record read and are taken to
  stay below the machine word.  The `int` fields `Line` and `Pos` of the
  exported struct `SyntaxError` are integers.
* A run-time panic of an index or slice expression is the result `none`.
-/

set_option autoImplicit false

namespace Logfmt

/-- A Go `[]byte`, every byte a natural number; `none` is the `nil` slice. -/
abbrev Bytes := Option (List Nat)

/-! ## Errors -/

/-- The Go struct `SyntaxError`; its fields `Line` and `Pos` are Go `int`s of an
exported struct, so they range over all integers. -/
structure SyntaxError where
  Msg : String
  Line : Int
  Pos : Int
deriving DecidableEq, Repr

/-- The values the Go interface `error` takes in `Decoder.err`: a pointer to a
`SyntaxError` or the read failure handed over by the line source. -/
inductive Error where
  | syntaxErr (e : SyntaxError)
  | source (msg : String)
deriving DecidableEq, Repr

/-! ## The line source `bufio.Scanner`

The scanner is a collaborator outside the repository.  Its model keeps what the
decoder can observe: the lines still to be delivered, the read failure that is
met once they are used up (`none` for a clean end of input), the current token
(`Bytes()`) and the stored error (`Err()`, which reports `io.EOF` as `nil`). -/

/-- Observable state of a `bufio.Scanner` splitting its input in lines. -/
structure Scanner where
  pending : List (List Nat)
  failure : Option String
  token : List Nat
  err : Option String
deriving DecidableEq, Repr

/-- The call `bufio.NewScanner(r)` for a reader that holds `lines` and then ends
with `failure`. -/
def NewScanner (lines : List (List Nat)) (failure : Option String) : Scanner :=
  { pending := lines, failure := failure, token := [], err := none }

/-- The method `Scanner.Scan`: the next line becomes the token and the result is
`true`; when no line is left the result is `false`, the token is reset to nil
(as `Scan` does at the end of the input) and the read failure, if any, is
recorded. -/
def Scanner.Scan (s : Scanner) : Scanner × Bool :=
  match s.pending with
  | l :: rest => ({ s with pending := rest, token := l }, true)
  | [] => ({ s with token := [], err := s.failure }, false)

/-- The method `Scanner.Bytes`. -/
def Scanner.Bytes (s : Scanner) : List Nat := s.token

/-- The method `Scanner.Err`. -/
def Scanner.Err (s : Scanner) : Option String := s.err

/-! ## The decoder -/

/-- The Go struct `Decoder`. -/
structure Decoder where
  pos : Nat
  key : Bytes
  value : Bytes
  lineNum : Nat
  s : Scanner
  err : Option Error
deriving DecidableEq, Repr

/-- The function `NewDecoder`. -/
def NewDecoder (lines : List (List Nat)) (failure : Option String) : Decoder :=
  { pos := 0, key := none, value := none, lineNum := 0,
    s := NewScanner lines failure, err := none }

/-- The method `Decoder.Key`. -/
def Decoder.Key (dec : Decoder) : Bytes := dec.key

/-- The method `Decoder.Value`. -/
def Decoder.Value (dec : Decoder) : Bytes := dec.value

/-- The method `Decoder.Err`. -/
def Decoder.Err (dec : Decoder) : Option Error := dec.err

/-- The method `Decoder.ScanRecord`. -/
def ScanRecord (dec : Decoder) : Decoder × Bool :=
  if dec.err ≠ none then (dec, false)
  else
    match dec.s.Scan with
    | (s1, false) => ({ dec with s := s1, err := s1.Err.map Error.source }, false)
    | (s1, true) => ({ dec with s := s1, lineNum := dec.lineNum + 1, pos := 0 }, true)

/-! ## Formatting of the offending byte -/

/-- Two lower-case hexadecimal digits of a byte. -/
def hex2 (c : Nat) : String :=
  String.mk [Nat.digitChar (c / 16 % 16), Nat.digitChar (c % 16)]

/-- The predicate `strconv.IsPrint` on the runes below 256. -/
def isPrintByte (c : Nat) : Bool :=
  (0x20 ≤ c && c ≤ 0x7e) || (0xa1 ≤ c && c ≤ 0xff && c != 0xad)

/-- The text `fmt.Sprintf("%q", c)` prints for a byte `c`: the rune `c` as a
single-quoted Go character literal (`strconv.QuoteRune`). -/
def fmtQ (c : Nat) : String :=
  let body : String :=
    if c = 0x27 then "\\'"
    else if c = 0x5c then "\\\\"
    else if isPrintByte c then String.singleton (Char.ofNat c)
    else if c = 0x07 then "\\a"
    else if c = 0x08 then "\\b"
    else if c = 0x0c then "\\f"
    else if c = 0x0a then "\\n"
    else if c = 0x0d then "\\r"
    else if c = 0x09 then "\\t"
    else if c = 0x0b then "\\v"
    else if c < 0x20 ∨ c = 0x7f then "\\x" ++ hex2 c
    else "\\u00" ++ hex2 c
  "'" ++ body ++ "'"

/-- The method `Decoder.syntaxError`. -/
def syntaxError (dec : Decoder) (msg : String) : Decoder :=
  { dec with
    err := some (.syntaxErr
      { Msg := msg, Line := (dec.lineNum : Int), Pos := (dec.pos : Int) + 1 }) }

/-- The method `Decoder.unexpectedByte`. -/
def unexpectedByte (dec : Decoder) (c : Nat) : Decoder :=
  { dec with
    err := some (.syntaxErr
      { Msg := "unexpected " ++ fmtQ c, Line := (dec.lineNum : Int),
        Pos := (dec.pos : Int) + 1 }) }

/-! ## Slice expressions -/

/-- The slice expression `line[lo:]`; `none` when it panics. -/
def sliceFrom (line : List Nat) (lo : Nat) : Option (List Nat) :=
  if lo ≤ line.length then some (line.drop lo) else none

/-- The slice expression `line[lo:hi]`; `none` when it panics. -/
def slice (line : List Nat) (lo hi : Nat) : Option (List Nat) :=
  if lo ≤ hi ∧ hi ≤ line.length then some ((line.take hi).drop lo) else none

/-- The index expression `line[i]`; `none` when it panics. -/
def index (line : List Nat) (i : Nat) : Option Nat := line.get? i

/-! ## The loops of `ScanKeyval`

Each `for p, c := range ...` loop is a recursion over the ranged bytes that
carries the index `p`; its result tells which exit the loop took. -/

/-- The loop under `// garbage`: the index of the first byte above the space. -/
def garbageLoop : List Nat → Nat → Option Nat
  | [], _ => none
  | c :: cs, p => if c > 0x20 then some p else garbageLoop cs (p + 1)

/-- Exits of the loop under the label `key`. -/
inductive KeyExit where
  | equal (p : Nat)
  | quote (p : Nat)
  | space (p : Nat)
  | eol
deriving DecidableEq, Repr

/-- The loop under the label `key`. -/
def keyLoop : List Nat → Nat → KeyExit
  | [], _ => .eol
  | c :: cs, p =>
    if c = 0x3d then .equal p
    else if c = 0x22 then .quote p
    else if c ≤ 0x20 then .space p
    else keyLoop cs (p + 1)

/-- Exits of the loop under `// value`. -/
inductive ValueExit where
  | unexpected (p : Nat) (c : Nat)
  | space (p : Nat)
  | eol
deriving DecidableEq, Repr

/-- The loop under `// value`. -/
def valueLoop : List Nat → Nat → ValueExit
  | [], _ => .eol
  | c :: cs, p =>
    if c = 0x3d ∨ c = 0x22 then .unexpected p c
    else if c ≤ 0x20 then .space p
    else valueLoop cs (p + 1)

/-- The loop under the label `qvalue`, with the flags `hasEsc` and `esc`: the
index of the closing quote and the final `hasEsc`, or `none` at the end of the
line. -/
def quoteLoop : List Nat → Nat → Bool → Bool → Option (Nat × Bool)
  | [], _, _, _ => none
  | c :: cs, p, hasEsc, esc =>
    if esc then quoteLoop cs (p + 1) hasEsc false
    else if c = 0x5c then quoteLoop cs (p + 1) true true
    else if c = 0x22 then some (p, hasEsc)
    else quoteLoop cs (p + 1) hasEsc esc

/-! ## `ScanKeyval`

The helper `unquoteBytes` is declared in another file of the package, so the
scanner takes it as the argument `unq`; `none` is its result `ok = false`. -/

/-- The constant `untermQuote`. -/
def untermQuote : String := "unterminated quoted value"

/-- The constant `invalidQuote`. -/
def invalidQuote : String := "invalid quoted value"

/-- The statement `if dec.pos > start { dec.key = line[start:dec.pos] }`. -/
def setKey (dec : Decoder) (line : List Nat) (start : Nat) : Option Decoder :=
  if dec.pos > start then
    match slice line start dec.pos with
    | none => none
    | some k => some { dec with key := some k }
  else some dec

/-- The statement `if dec.pos > start { dec.value = line[start:dec.pos] }`. -/
def setValue (dec : Decoder) (line : List Nat) (start : Nat) : Option Decoder :=
  if dec.pos > start then
    match slice line start dec.pos with
    | none => none
    | some v => some { dec with value := some v }
  else some dec

/-- The code of `ScanKeyval` from the label `qvalue` on. -/
def scanQvalue (unq : List Nat → Option (List Nat)) (dec : Decoder) (line : List Nat) :
    Option (Decoder × Bool) :=
  let start := dec.pos
  match sliceFrom line (dec.pos + 1) with
  | none => none
  | some rest =>
    match quoteLoop rest 0 false false with
    | some (p, hasEsc) =>
      let dec := { dec with pos := dec.pos + (p + 2) }
      if hasEsc then
        match slice line start dec.pos with
        | none => none
        | some span =>
          match unq span with
          | none => some (syntaxError dec invalidQuote, false)
          | some v => some ({ dec with value := some v }, true)
      else
        let start := start + 1
        let stop := dec.pos - 1
        if stop > start then
          match slice line start stop with
          | none => none
          | some v => some ({ dec with value := some v }, true)
        else some (dec, true)
    | none => some (syntaxError { dec with pos := line.length } untermQuote, false)

/-- The code of `ScanKeyval` from the comment `// value` up to the label
`qvalue`. -/
def scanValue (dec : Decoder) (line : List Nat) : Option (Decoder × Bool) :=
  let start := dec.pos
  match sliceFrom line dec.pos with
  | none => none
  | some rest =>
    match valueLoop rest 0 with
    | .unexpected p c =>
      let dec := { dec with pos := dec.pos + p }
      some (unexpectedByte dec c, false)
    | .space p =>
      match setValue { dec with pos := dec.pos + p } line start with
      | none => none
      | some dec => some (dec, true)
    | .eol =>
      match setValue { dec with pos := line.length } line start with
      | none => none
      | some dec => some (dec, true)

/-- The code of `ScanKeyval` from the label `equal` on. -/
def scanEqual (unq : List Nat → Option (List Nat)) (dec : Decoder) (line : List Nat) :
    Option (Decoder × Bool) :=
  let dec := { dec with pos := dec.pos + 1 }
  if dec.pos ≥ line.length then some (dec, true)
  else
    match index line dec.pos with
    | none => none
    | some c =>
      if c ≤ 0x20 then some (dec, true)
      else if c = 0x22 then scanQvalue unq dec line
      else scanValue dec line

/-- The code of `ScanKeyval` from the label `key` on. -/
def scanKey (unq : List Nat → Option (List Nat)) (dec : Decoder) (line : List Nat) :
    Option (Decoder × Bool) :=
  let start := dec.pos
  match sliceFrom line dec.pos with
  | none => none
  | some rest =>
    match keyLoop rest 0 with
    | .equal p =>
      match setKey { dec with pos := dec.pos + p } line start with
      | none => none
      | some dec =>
        if dec.key = none then some (unexpectedByte dec 0x3d, false)
        else scanEqual unq dec line
    | .quote p =>
      let dec := { dec with pos := dec.pos + p }
      some (unexpectedByte dec 0x22, false)
    | .space p =>
      match setKey { dec with pos := dec.pos + p } line start with
      | none => none
      | some dec => some (dec, true)
    | .eol =>
      match setKey { dec with pos := line.length } line start with
      | none => none
      | some dec => some (dec, true)

/-- The method `Decoder.ScanKeyval`; `none` is a run-time panic. -/
def ScanKeyval (unq : List Nat → Option (List Nat)) (dec : Decoder) :
    Option (Decoder × Bool) :=
  let dec := { dec with key := none, value := none }
  if dec.err ≠ none then some (dec, false)
  else
    let line := dec.s.Bytes
    match sliceFrom line dec.pos with
    | none => none
    | some rest =>
      match garbageLoop rest 0 with
      | some p => scanKey unq { dec with pos := dec.pos + p } line
      | none => some ({ dec with pos := line.length }, false)

/-! ## The helper `unquoteBytes` -/

/-- Value of one hexadecimal digit. -/
def hexVal (c : Nat) : Option Nat :=
  if 0x30 ≤ c ∧ c ≤ 0x39 then some (c - 0x30)
  else if 0x61 ≤ c ∧ c ≤ 0x66 then some (c - 0x61 + 10)
  else if 0x41 ≤ c ∧ c ≤ 0x46 then some (c - 0x41 + 10)
  else none

/-- The byte a short escape stands for: the letter after the backslash is one
of `a b f n r t v`, or the escaped byte is the backslash or the double quote. -/
def shortEscape (c : Nat) : Option Nat :=
  if c = 0x22 then some 0x22
  else if c = 0x5c then some 0x5c
  else if c = 0x61 then some 0x07
  else if c = 0x62 then some 0x08
  else if c = 0x66 then some 0x0c
  else if c = 0x6e then some 0x0a
  else if c = 0x72 then some 0x0d
  else if c = 0x74 then some 0x09
  else if c = 0x76 then some 0x0b
  else none

/-- UTF-8 encoding of a code point, `none` for a surrogate or a number above
`0x10FFFF`. -/
def encodeRune (n : Nat) : Option (List Nat) :=
  if n < 0x80 then some [n]
  else if n < 0x800 then some [0xc0 + n / 64, 0x80 + n % 64]
  else if 0xd800 ≤ n ∧ n < 0xe000 then none
  else if n < 0x10000 then some [0xe0 + n / 4096, 0x80 + n / 64 % 64, 0x80 + n % 64]
  else if n < 0x110000 then
    some [0xf0 + n / 262144, 0x80 + n / 4096 % 64, 0x80 + n / 64 % 64, 0x80 + n % 64]
  else none

/-- Replaces the backslash escapes of the bytes between the quotes; `none` for
a malformed escape, an invalid code point or a quote that is not escaped. -/
def unescape : List Nat → Option (List Nat)
  | [] => some []
  | c :: rest =>
    if c = 0x5c then
      match rest with
      | [] => none
      | e :: rest2 =>
        if e = 0x75 then
          match rest2 with
          | h1 :: h2 :: h3 :: h4 :: rest3 =>
            match hexVal h1, hexVal h2, hexVal h3, hexVal h4 with
            | some d1, some d2, some d3, some d4 =>
              match encodeRune (((d1 * 16 + d2) * 16 + d3) * 16 + d4), unescape rest3 with
              | some enc, some out => some (enc ++ out)
              | _, _ => none
            | _, _, _, _ => none
          | _ => none
        else
          match shortEscape e, unescape rest2 with
          | some b, some out => some (b :: out)
          | _, _ => none
    else if c = 0x22 then none
    else
      match unescape rest with
      | some out => some (c :: out)
      | none => none

/-- Is the byte a UTF-8 continuation byte in the range `lo..hi`. -/
def contByte (lo hi : Nat) (b : Nat) : Bool := lo ≤ b && b ≤ hi

/-- Well-formed UTF-8. -/
def validUTF8 : List Nat → Bool
  | [] => true
  | b0 :: rest =>
    if b0 < 0x80 then validUTF8 rest
    else if 0xc2 ≤ b0 ∧ b0 ≤ 0xdf then
      match rest with
      | b1 :: r => contByte 0x80 0xbf b1 && validUTF8 r
      | _ => false
    else if 0xe0 ≤ b0 ∧ b0 ≤ 0xef then
      match rest with
      | b1 :: b2 :: r =>
        contByte (if b0 = 0xe0 then 0xa0 else 0x80) (if b0 = 0xed then 0x9f else 0xbf) b1
          && contByte 0x80 0xbf b2 && validUTF8 r
      | _ => false
    else if 0xf0 ≤ b0 ∧ b0 ≤ 0xf4 then
      match rest with
      | b1 :: b2 :: b3 :: r =>
        contByte (if b0 = 0xf0 then 0x90 else 0x80) (if b0 = 0xf4 then 0x8f else 0xbf) b1
          && contByte 0x80 0xbf b2 && contByte 0x80 0xbf b3 && validUTF8 r
      | _ => false
    else false

/-- Modelled from the spec: the helper `unquoteBytes`, which `ScanKeyval` calls
and whose source is not in `decode.go`.  It takes the raw span with both
quotes and unescapes the inner span by the standard backslash rules (the
escaped quote, the escaped backslash, the short escapes and the `u` code-point
escape with four hexadecimal digits); a malformed escape, an invalid code point
or a result that is not valid UTF-8 is a failure (`none`). -/
def unquoteBytes (s : List Nat) : Option (List Nat) :=
  if s.length < 2 ∨ s.head? ≠ some 0x22 ∨ s.getLast? ≠ some 0x22 then none
  else
    match unescape ((s.drop 1).dropLast) with
    | none => none
    | some t => if validUTF8 t then some t else none

/-! ## Words of the specification -/

/-- A byte that may stand in a bare key or a bare value: above the space and
neither the equal sign nor the double quote. -/
def bareBytes (t : List Nat) : Prop := ∀ c ∈ t, 0x20 < c ∧ c ≠ 0x3d ∧ c ≠ 0x22

instance (t : List Nat) : Decidable (bareBytes t) := by
  unfold bareBytes; infer_instance

/-- A bare key or bare value: a non-empty run of bare bytes. -/
def bareToken (t : List Nat) : Prop := t ≠ [] ∧ bareBytes t

instance (t : List Nat) : Decidable (bareToken t) := by
  unfold bareToken; infer_instance

/-- A run of separator bytes. -/
def separators (ws : List Nat) : Prop := ∀ c ∈ ws, c ≤ 0x20

instance (ws : List Nat) : Decidable (separators ws) := by
  unfold separators; infer_instance

/-- The bytes that follow a token end it: there is none, or the first one is a
separator. -/
def endsToken (rest : List Nat) : Prop := ∀ c, rest.head? = some c → c ≤ 0x20

/-- Text between quotes that holds neither a double quote nor a backslash. -/
def plainQuoted (q : List Nat) : Prop := ∀ c ∈ q, c ≠ 0x22 ∧ c ≠ 0x5c

instance (q : List Nat) : Decidable (plainQuoted q) := by
  unfold plainQuoted; infer_instance

/-- Reads `r` from left to right as the inside of a quoted value, `esc` telling
whether the byte before was an escaping backslash: `none` when a double quote
is met that is not escaped, else whether the last byte left an escape open. -/
def escAfter : Bool → List Nat → Option Bool
  | esc, [] => some esc
  | true, _ :: r => escAfter false r
  | false, c :: r =>
    if c = 0x5c then escAfter true r
    else if c = 0x22 then none
    else escAfter false r

/-- No double quote of `r` is unescaped. -/
def noUnescapedQuote (r : List Nat) : Prop := (escAfter false r).isSome = true

instance (r : List Nat) : Decidable (noUnescapedQuote r) := by
  unfold noUnescapedQuote; infer_instance

/-! ## Sequences of calls -/

/-- The line made of the tokens `k=v` of `pairs`, joined by single spaces. -/
def joinTokens (pairs : List (List Nat × List Nat)) : List Nat :=
  List.intercalate [0x20] (pairs.map fun p => p.1 ++ 0x3d :: p.2)

/-- The tokens ` k=v` of `pairs`, each one after a single space: what follows
the first token on a joined line. -/
def spacedTokens : List (List Nat × List Nat) → List Nat
  | [] => []
  | p :: ps => 0x20 :: (p.1 ++ 0x3d :: (p.2 ++ spacedTokens ps))

/-- What a caller sees after `n` successive calls of `ScanKeyval`: for each call
the returned boolean with `Key()` and `Value()` read right after it, and the
decoder left by the last call; `none` when a call panics. -/
def scanKeyvals (unq : List Nat → Option (List Nat)) :
    Nat → Decoder → Option (List (Bool × Bytes × Bytes) × Decoder)
  | 0, d => some ([], d)
  | n + 1, d =>
    match ScanKeyval unq d with
    | none => none
    | some (d1, ok) =>
      match scanKeyvals unq n d1 with
      | none => none
      | some (seen, d2) => some ((ok, d1.Key, d1.Value) :: seen, d2)

/-- The two advance calls of the decoder. -/
inductive Call where
  | record
  | keyval
deriving DecidableEq, Repr

/-- One advance call; `none` when it panics. -/
def advance (unq : List Nat → Option (List Nat)) (d : Decoder) : Call → Option (Decoder × Bool)
  | .record => some (ScanRecord d)
  | .keyval => ScanKeyval unq d

/-- A finite sequence of advance calls: the decoder it leaves and the boolean
each call returned; `none` when a call panics. -/
def run (unq : List Nat → Option (List Nat)) : Decoder → List Call → Option (Decoder × List Bool)
  | d, [] => some (d, [])
  | d, c :: cs =>
    match advance unq d c with
    | none => none
    | some (d1, ok) =>
      match run unq d1 cs with
      | none => none
      | some (d2, oks) => some (d2, ok :: oks)

/-- Number of `ScanRecord` calls of a sequence that returned `true`. -/
def recordsRead : List Call → List Bool → Nat
  | .record :: cs, true :: oks => recordsRead cs oks + 1
  | _ :: cs, _ :: oks => recordsRead cs oks
  | _, _ => 0

/-- The decoder at the start of its first record: a new decoder over the single
line `line`, after one call of `ScanRecord`. -/
def firstRecord (line : List Nat) : Decoder := (ScanRecord (NewDecoder [line] none)).1

/-! ## The text of a syntax error -/

/-- An argument passed to `fmt.Sprintf`. -/
inductive FmtArg where
  | int (i : Int)
  | str (s : String)
deriving DecidableEq, Repr

/-- The verb `%d` on a Go `int`: its decimal digits, after a minus sign when it
is negative. -/
def fmtD : Int → List Char
  | .ofNat n => (Nat.repr n).data
  | .negSucc n => '-' :: (Nat.repr (n + 1)).data

/-- One verb of a format applied to its argument: `%d` on an int and `%s` on a
string, the uses made in `decode.go`; for any other pairing `fmt` prints a
`%!` notice, kept here as the bare mark `%!` and the verb. -/
def fmtVerb (v : Char) : FmtArg → List Char
  | .int i => if v = 'd' then fmtD i else ['%', '!', v]
  | .str s => if v = 's' then s.data else ['%', '!', v]

/-- The characters `fmt.Sprintf` prints for a format and its arguments: the text
of the format, every `%` with the verb after it replaced by the next argument. -/
def sprintfChars : List Char → List FmtArg → List Char
  | [], _ => []
  | c :: cs, args =>
    if c = '%' then
      match cs, args with
      | v :: cs2, a :: args2 => fmtVerb v a ++ sprintfChars cs2 args2
      | v :: cs2, [] => '%' :: '!' :: v :: sprintfChars cs2 []
      | [], _ => ['%', '!']
    else c :: sprintfChars cs args

/-- The function `fmt.Sprintf` on the formats of `decode.go`. -/
def Sprintf (format : String) (args : List FmtArg) : String :=
  String.mk (sprintfChars format.data args)

/-- The method `SyntaxError.Error`. -/
def SyntaxError.Error (e : SyntaxError) : String :=
  Sprintf "logfmt syntax error at pos %d on line %d: %s" [.int e.Pos, .int e.Line, .str e.Msg]

/-- Decimal text of an integer, with a minus sign when it is negative. -/
def decimal (i : Int) : String := toString i

/-! ## The loop over one record -/

/-- The loop `for dec.ScanKeyval() {}` run with `fuel` calls at most: the decoder
it leaves and the number of calls that returned `true`; `none` when a call
panics or the calls allowed are used up before one returns `false`. -/
def scanLoop (unq : List Nat → Option (List Nat)) : Nat → Decoder → Option (Decoder × Nat)
  | 0, _ => none
  | fuel + 1, d =>
    match ScanKeyval unq d with
    | none => none
    | some (d1, true) =>
      match scanLoop unq fuel d1 with
      | none => none
      | some (d2, n) => some (d2, n + 1)
    | some (d1, false) => some (d1, 0)

/-! ## The same scan on a line and on its unread part -/

/-- A syntax error with its column moved `n` bytes to the right. -/
def shiftErr (n : Nat) : Error → Error
  | .syntaxErr e => .syntaxErr { e with Pos := e.Pos + n }
  | .source msg => .source msg

/-- The decoder `d`, which reads a suffix of a line, seen on the whole line held
by the source `s`: cursor and error column moved by the `n` bytes before the
suffix. -/
def shift (n : Nat) (s : Scanner) (d : Decoder) : Decoder :=
  { d with pos := d.pos + n, s := s, err := d.err.map (shiftErr n) }

/-! ## Every outcome of one call -/

/-- What one call of `ScanKeyval` does when no error is set and the cursor
stands after `pre` on the line `pre ++ l`: it returns, with the cursor still
inside the line; when it returns `true` the cursor has moved forward, no error
is set and the key is the run of bare bytes after the leading separators of
`l`, ended by an equal sign, a separator or the end of the line; when it
returns `false` the value is nil, and no error is set exactly when `l` holds
separators only, the cursor then being at the end of the line and the key nil. -/
def Classified (unq : List Nat → Option (List Nat)) (d : Decoder) (pre l : List Nat) : Prop :=
  ∃ d1 ok, ScanKeyval unq d = some (d1, ok)
    ∧ d1.pos ≤ (pre ++ l).length
    ∧ (ok = true → d.pos < d1.pos ∧ d1.err = none
        ∧ ∃ ws k rest, l = ws ++ (k ++ rest) ∧ separators ws ∧ bareToken k
          ∧ d1.key = some k ∧ ∀ c, rest.head? = some c → c ≤ 0x20 ∨ c = 0x3d)
    ∧ (ok = false → d1.value = none ∧ (separators l → d1.err = none)
        ∧ (d1.err = none → separators l ∧ d1.pos = (pre ++ l).length ∧ d1.key = none))

/-! ## Slice expressions on a line given as a concatenation -/

theorem sliceFrom_append (a b : List Nat) : sliceFrom (a ++ b) a.length = some b := by
  simp [sliceFrom]

theorem slice_append (a b c : List Nat) :
    slice (a ++ (b ++ c)) a.length (a.length + b.length) = some b := by
  simp [slice, ← List.append_assoc, List.take_append_eq_append_take]

theorem index_append (a : List Nat) (c : Nat) (rest : List Nat) :
    index (a ++ c :: rest) a.length = some c := by
  induction a with
  | nil => simp [index]
  | cons x xs ih => simpa [index] using ih

/-! ## The loops on runs of separators, bare bytes and quoted text -/

theorem separators_cons {c : Nat} {ws : List Nat} (h : separators (c :: ws)) :
    c ≤ 0x20 ∧ separators ws :=
  ⟨h c (by simp), fun x hx => h x (by simp [hx])⟩

theorem bareBytes_cons {c : Nat} {t : List Nat} (h : bareBytes (c :: t)) :
    (0x20 < c ∧ c ≠ 0x3d ∧ c ≠ 0x22) ∧ bareBytes t :=
  ⟨h c (by simp), fun x hx => h x (by simp [hx])⟩

theorem plainQuoted_cons {c : Nat} {q : List Nat} (h : plainQuoted (c :: q)) :
    (c ≠ 0x22 ∧ c ≠ 0x5c) ∧ plainQuoted q :=
  ⟨h c (by simp), fun x hx => h x (by simp [hx])⟩

theorem garbageLoop_separators (ws rest : List Nat) (p : Nat) (h : separators ws) :
    garbageLoop (ws ++ rest) p = garbageLoop rest (p + ws.length) := by
  induction ws generalizing p with
  | nil => simp
  | cons c cs ih =>
    obtain ⟨hc, hcs⟩ := separators_cons h
    have e : p + 1 + cs.length = p + (cs.length + 1) := by omega
    simp [garbageLoop, Nat.not_lt.mpr hc, ih _ hcs, e]

theorem garbageLoop_first (c : Nat) (rest : List Nat) (p : Nat) (hc : 0x20 < c) :
    garbageLoop (c :: rest) p = some p := by
  simp [garbageLoop, hc]

theorem keyLoop_bare (k rest : List Nat) (p : Nat) (h : bareBytes k) :
    keyLoop (k ++ rest) p = keyLoop rest (p + k.length) := by
  induction k generalizing p with
  | nil => simp
  | cons c cs ih =>
    obtain ⟨⟨h1, h2, h3⟩, hcs⟩ := bareBytes_cons h
    have e : p + 1 + cs.length = p + (cs.length + 1) := by omega
    simp [keyLoop, h2, h3, Nat.not_le.mpr h1, ih _ hcs, e]

theorem keyLoop_end (rest : List Nat) (p : Nat) (h : endsToken rest) :
    keyLoop rest p = .eol ∧ rest = [] ∨ keyLoop rest p = .space p ∧ rest ≠ [] := by
  cases rest with
  | nil => simp [keyLoop]
  | cons c cs =>
    have hc : c ≤ 0x20 := h c rfl
    have h1 : c ≠ 0x3d := by omega
    have h2 : c ≠ 0x22 := by omega
    simp [keyLoop, h1, h2, hc]

theorem valueLoop_bare (v rest : List Nat) (p : Nat) (h : bareBytes v) :
    valueLoop (v ++ rest) p = valueLoop rest (p + v.length) := by
  induction v generalizing p with
  | nil => simp
  | cons c cs ih =>
    obtain ⟨⟨h1, h2, h3⟩, hcs⟩ := bareBytes_cons h
    have e : p + 1 + cs.length = p + (cs.length + 1) := by omega
    simp [valueLoop, h2, h3, Nat.not_le.mpr h1, ih _ hcs, e]

theorem valueLoop_end (rest : List Nat) (p : Nat) (h : endsToken rest) :
    valueLoop rest p = .eol ∧ rest = [] ∨ valueLoop rest p = .space p ∧ rest ≠ [] := by
  cases rest with
  | nil => simp [valueLoop]
  | cons c cs =>
    have hc : c ≤ 0x20 := h c rfl
    have h1 : c ≠ 0x3d := by omega
    have h2 : c ≠ 0x22 := by omega
    simp [valueLoop, h1, h2, hc]

theorem quoteLoop_plain (q rest : List Nat) (p : Nat) (hasEsc : Bool) (h : plainQuoted q) :
    quoteLoop (q ++ rest) p hasEsc false = quoteLoop rest (p + q.length) hasEsc false := by
  induction q generalizing p with
  | nil => simp
  | cons c cs ih =>
    obtain ⟨⟨h1, h2⟩, hcs⟩ := plainQuoted_cons h
    have e : p + 1 + cs.length = p + (cs.length + 1) := by omega
    simp [quoteLoop, h1, h2, ih _ hcs, e]

theorem quoteLoop_open (r : List Nat) (p : Nat) (hasEsc esc : Bool)
    (h : (escAfter esc r).isSome = true) : quoteLoop r p hasEsc esc = none := by
  induction r generalizing p hasEsc esc with
  | nil => simp [quoteLoop]
  | cons c cs ih =>
    cases esc with
    | true =>
      simp only [escAfter] at h
      simp [quoteLoop, ih _ _ _ h]
    | false =>
      simp only [escAfter] at h
      by_cases h1 : c = 0x5c
      · simp only [h1, if_true] at h
        simp [quoteLoop, h1, ih _ _ _ h]
      · simp only [h1, if_false] at h
        by_cases h2 : c = 0x22
        · simp [h2] at h
        · simp only [h2, if_false] at h
          simp [quoteLoop, h1, h2, ih _ _ _ h]

/-! ## The labelled parts of `ScanKeyval` on a line given as a concatenation -/

theorem slice_eq (a b c : List Nat) (lo hi : Nat) (hlo : lo = a.length)
    (hhi : hi = a.length + b.length) : slice (a ++ (b ++ c)) lo hi = some b := by
  subst hlo hhi; exact slice_append a b c

theorem slice_eq_end (a b : List Nat) (lo hi : Nat) (hlo : lo = a.length)
    (hhi : hi = a.length + b.length) : slice (a ++ b) lo hi = some b := by
  have h := slice_eq a b [] lo hi hlo hhi
  simpa using h

theorem sliceFrom_next (a : List Nat) (c : Nat) (rest : List Nat) :
    sliceFrom (a ++ c :: rest) (a.length + 1) = some rest := by
  have h := sliceFrom_append (a ++ [c]) rest
  simpa using h

theorem scanValue_bare (d : Decoder) (line e v rest : List Nat)
    (hline : line = e ++ (v ++ rest)) (hpos : d.pos = e.length)
    (hv : bareToken v) (hrest : endsToken rest) :
    scanValue d line
      = some ({ d with pos := e.length + v.length, value := some v }, true) := by
  subst hline
  obtain ⟨pos, key, value, lineNum, s, err⟩ := d
  simp only at hpos; subst hpos
  have hlen : 0 < v.length := List.length_pos.mpr hv.1
  have hl := valueLoop_bare v rest 0 hv.2
  rw [Nat.zero_add] at hl
  rcases valueLoop_end rest v.length hrest with ⟨h, hnil⟩ | ⟨h, _⟩
  · subst hnil
    simp only [List.append_nil] at hl
    simp only [scanValue, sliceFrom_append, hl, h, setValue,
      List.append_nil, List.length_append, gt_iff_lt, Nat.lt_add_right_iff_pos, hlen, if_true,
      slice_eq_end e v _ _ rfl rfl]
  · simp only [scanValue, sliceFrom_append, hl, h, setValue,
      gt_iff_lt, Nat.lt_add_right_iff_pos, hlen, if_true,
      slice_eq e v rest _ _ rfl rfl]

theorem scanValue_unexpected (d : Decoder) (line e v rest : List Nat) (c : Nat)
    (hline : line = e ++ (v ++ c :: rest))
    (hpos : d.pos = e.length) (hv : bareBytes v) (hc : c = 0x3d ∨ c = 0x22) :
    scanValue d line
      = some (unexpectedByte { d with pos := e.length + v.length } c, false) := by
  subst hline
  obtain ⟨pos, key, value, lineNum, s, err⟩ := d
  simp only at hpos; subst hpos
  have hl := valueLoop_bare v (c :: rest) 0 hv
  rw [Nat.zero_add] at hl
  have h : valueLoop (c :: rest) v.length = .unexpected v.length c := by
    simp [valueLoop, hc]
  simp only [scanValue, sliceFrom_append, hl, h]

theorem scanQvalue_plain (unq : List Nat → Option (List Nat)) (d : Decoder)
    (line e q rest : List Nat) (hline : line = e ++ (0x22 :: (q ++ 0x22 :: rest)))
    (hpos : d.pos = e.length) (hq : plainQuoted q) :
    scanQvalue unq d line
      = some ({ d with pos := e.length + q.length + 2,
                       value := if q = [] then d.value else some q }, true) := by
  subst hline
  obtain ⟨pos, key, value, lineNum, s, err⟩ := d
  simp only at hpos; subst hpos
  have hl := quoteLoop_plain q (0x22 :: rest) 0 false hq
  rw [Nat.zero_add] at hl
  have h : quoteLoop (0x22 :: rest) q.length false false = some (q.length, false) := by
    simp [quoteLoop]
  have hs := sliceFrom_next e 0x22 (q ++ 0x22 :: rest)
  by_cases hq0 : q = []
  · subst hq0
    simp [scanQvalue, sliceFrom_next, quoteLoop]
  · have hlen : 0 < q.length := List.length_pos.mpr hq0
    have hsl : slice (e ++ (0x22 :: (q ++ 0x22 :: rest))) (e.length + 1)
        (e.length + (q.length + 2) - 1) = some q := by
      have := slice_eq (e ++ [0x22]) q (0x22 :: rest) (e.length + 1)
        (e.length + (q.length + 2) - 1) (by simp) (by simp; omega)
      simpa using this
    simp only [scanQvalue, hs, hl, h, hsl, hq0]
    simp [hlen, Nat.add_assoc]

theorem scanQvalue_open (unq : List Nat → Option (List Nat)) (d : Decoder)
    (line e r : List Nat) (hline : line = e ++ (0x22 :: r))
    (hpos : d.pos = e.length) (hr : noUnescapedQuote r) :
    scanQvalue unq d line
      = some (syntaxError { d with pos := line.length } untermQuote, false) := by
  subst hline
  obtain ⟨pos, key, value, lineNum, s, err⟩ := d
  simp only at hpos; subst hpos
  simp only [scanQvalue, sliceFrom_next, quoteLoop_open r 0 false false hr]

theorem index_next (a : List Nat) (x c : Nat) (rest : List Nat) :
    index (a ++ x :: c :: rest) (a.length + 1) = some c := by
  have h := index_append (a ++ [x]) c rest
  simpa using h

theorem scanEqual_end (unq : List Nat → Option (List Nat)) (d : Decoder)
    (line b tail : List Nat) (hline : line = b ++ 0x3d :: tail)
    (hpos : d.pos = b.length) (htail : endsToken tail) :
    scanEqual unq d line = some ({ d with pos := b.length + 1 }, true) := by
  subst hline
  obtain ⟨pos, key, value, lineNum, s, err⟩ := d
  simp only at hpos; subst hpos
  cases tail with
  | nil => simp [scanEqual]
  | cons c t =>
    have hc : c ≤ 0x20 := htail c rfl
    simp [scanEqual, index_next, hc]

theorem scanEqual_next (unq : List Nat → Option (List Nat)) (d : Decoder)
    (line b t : List Nat) (c : Nat) (hline : line = b ++ 0x3d :: c :: t)
    (hpos : d.pos = b.length) (hc : 0x20 < c) :
    scanEqual unq d line
      = if c = 0x22 then scanQvalue unq { d with pos := b.length + 1 } line
        else scanValue { d with pos := b.length + 1 } line := by
  subst hline
  obtain ⟨pos, key, value, lineNum, s, err⟩ := d
  simp only at hpos; subst hpos
  simp [scanEqual, index_next, Nat.not_le.mpr hc]

theorem scanKey_flag (unq : List Nat → Option (List Nat)) (d : Decoder)
    (line a k rest : List Nat) (hline : line = a ++ (k ++ rest))
    (hpos : d.pos = a.length) (hk : bareToken k) (hrest : endsToken rest) :
    scanKey unq d line = some ({ d with pos := a.length + k.length, key := some k }, true) := by
  subst hline
  obtain ⟨pos, key, value, lineNum, s, err⟩ := d
  simp only at hpos; subst hpos
  have hlen : 0 < k.length := List.length_pos.mpr hk.1
  have hl := keyLoop_bare k rest 0 hk.2
  rw [Nat.zero_add] at hl
  rcases keyLoop_end rest k.length hrest with ⟨h, hnil⟩ | ⟨h, _⟩
  · subst hnil
    simp only [List.append_nil] at hl
    simp only [scanKey, sliceFrom_append, hl, h, setKey,
      List.append_nil, List.length_append, gt_iff_lt, Nat.lt_add_right_iff_pos, hlen, if_true,
      slice_eq_end a k _ _ rfl rfl]
  · simp only [scanKey, sliceFrom_append, hl, h, setKey,
      gt_iff_lt, Nat.lt_add_right_iff_pos, hlen, if_true,
      slice_eq a k rest _ _ rfl rfl]

theorem scanKey_equal (unq : List Nat → Option (List Nat)) (d : Decoder)
    (line a k tail : List Nat) (hline : line = a ++ (k ++ 0x3d :: tail))
    (hpos : d.pos = a.length) (hk : bareToken k) :
    scanKey unq d line
      = scanEqual unq { d with pos := a.length + k.length, key := some k } line := by
  subst hline
  obtain ⟨pos, key, value, lineNum, s, err⟩ := d
  simp only at hpos; subst hpos
  have hlen : 0 < k.length := List.length_pos.mpr hk.1
  have hl := keyLoop_bare k (0x3d :: tail) 0 hk.2
  rw [Nat.zero_add] at hl
  have h : keyLoop (0x3d :: tail) k.length = .equal k.length := by simp [keyLoop]
  simp only [scanKey, sliceFrom_append, hl, h, setKey,
    gt_iff_lt, Nat.lt_add_right_iff_pos, hlen, if_true,
    slice_eq a k (0x3d :: tail) _ _ rfl rfl]
  simp

theorem scanKey_quote (unq : List Nat → Option (List Nat)) (d : Decoder)
    (line a k rest : List Nat) (hline : line = a ++ (k ++ 0x22 :: rest))
    (hpos : d.pos = a.length) (hk : bareBytes k) :
    scanKey unq d line
      = some (unexpectedByte { d with pos := a.length + k.length } 0x22, false) := by
  subst hline
  obtain ⟨pos, key, value, lineNum, s, err⟩ := d
  simp only at hpos; subst hpos
  have hl := keyLoop_bare k (0x22 :: rest) 0 hk
  rw [Nat.zero_add] at hl
  have h : keyLoop (0x22 :: rest) k.length = .quote k.length := by simp [keyLoop]
  simp only [scanKey, sliceFrom_append, hl, h]

theorem scanKey_equal_first (unq : List Nat → Option (List Nat)) (d : Decoder)
    (line a rest : List Nat) (hline : line = a ++ 0x3d :: rest)
    (hpos : d.pos = a.length) (hkey : d.key = none) :
    scanKey unq d line = some (unexpectedByte d 0x3d, false) := by
  subst hline
  obtain ⟨pos, key, value, lineNum, s, err⟩ := d
  simp only at hpos hkey; subst hpos hkey
  simp [scanKey, sliceFrom_append, keyLoop, setKey]

theorem ScanKeyval_skip (unq : List Nat → Option (List Nat)) (d : Decoder)
    (pre ws body : List Nat) (herr : d.err = none) (hpos : d.pos = pre.length)
    (hline : d.s.Bytes = pre ++ (ws ++ body)) (hws : separators ws)
    (hbody : ∃ c, body.head? = some c ∧ 0x20 < c) :
    ScanKeyval unq d
      = scanKey unq { d with key := none, value := none, pos := pre.length + ws.length }
          (pre ++ (ws ++ body)) := by
  obtain ⟨pos, key, value, lineNum, s, err⟩ := d
  simp only at hpos herr hline; subst hpos herr
  obtain ⟨c, hc, hc2⟩ := hbody
  cases body with
  | nil => simp at hc
  | cons c0 t =>
    simp only [List.head?_cons, Option.some.injEq] at hc
    subst hc
    have hl := garbageLoop_separators ws (c0 :: t) 0 hws
    rw [Nat.zero_add, garbageLoop_first _ _ _ hc2] at hl
    simp only [ScanKeyval, hline, sliceFrom_append, hl]
    simp

theorem ScanKeyval_end (unq : List Nat → Option (List Nat)) (d : Decoder)
    (pre ws : List Nat) (herr : d.err = none) (hpos : d.pos = pre.length)
    (hline : d.s.Bytes = pre ++ ws) (hws : separators ws) :
    ScanKeyval unq d
      = some ({ d with key := none, value := none, pos := pre.length + ws.length }, false) := by
  obtain ⟨pos, key, value, lineNum, s, err⟩ := d
  simp only at hpos herr hline; subst hpos herr
  have hl := garbageLoop_separators ws [] 0 hws
  simp only [List.append_nil, garbageLoop] at hl
  simp only [ScanKeyval, hline, sliceFrom_append, hl]
  simp

theorem bareToken_head {k : List Nat} (rest : List Nat) (hk : bareToken k) :
    ∃ c, (k ++ rest).head? = some c ∧ 0x20 < c := by
  obtain ⟨h0, hb⟩ := hk
  cases k with
  | nil => exact absurd rfl h0
  | cons c t => exact ⟨c, by simp, (hb c (by simp)).1⟩

/-! ## One call of `ScanKeyval` on the shapes of a token -/

theorem ScanKeyval_pair (unq : List Nat → Option (List Nat)) (d : Decoder)
    (pre ws k v rest : List Nat) (herr : d.err = none) (hpos : d.pos = pre.length)
    (hline : d.s.Bytes = pre ++ (ws ++ (k ++ 0x3d :: (v ++ rest))))
    (hws : separators ws) (hk : bareToken k) (hv : bareToken v) (hrest : endsToken rest) :
    ScanKeyval unq d
      = some ({ d with key := some k, value := some v,
                       pos := pre.length + ws.length + k.length + 1 + v.length }, true) := by
  rw [ScanKeyval_skip unq d pre ws _ herr hpos hline hws (bareToken_head _ hk)]
  obtain ⟨c, hc, hc2⟩ := bareToken_head rest hv
  obtain ⟨t, ht⟩ : ∃ t, v ++ rest = c :: t := by
    cases hvr : v ++ rest with
    | nil => simp [hvr] at hc
    | cons x t => simp [hvr] at hc; exact ⟨t, by rw [hc]⟩
  have hc3 : c ≠ 0x22 := by
    obtain ⟨h0, hb⟩ := hv
    cases v with
    | nil => exact absurd rfl h0
    | cons x xs =>
      simp at ht
      have := (hb x (by simp)).2.2
      rw [ht.1] at this; exact this
  rw [scanKey_equal unq _ _ (pre ++ ws) k (v ++ rest) (by simp) (by simp) hk,
    scanEqual_next unq _ _ ((pre ++ ws) ++ k) t c (by simp [ht]) (by simp [Nat.add_assoc]) hc2,
    if_neg hc3,
    scanValue_bare _ _ (((pre ++ ws) ++ k) ++ [0x3d]) v rest (by simp)
      (by simp [Nat.add_assoc]) hv hrest]
  simp [Nat.add_assoc]

theorem ScanKeyval_flag (unq : List Nat → Option (List Nat)) (d : Decoder)
    (pre ws k rest : List Nat) (herr : d.err = none) (hpos : d.pos = pre.length)
    (hline : d.s.Bytes = pre ++ (ws ++ (k ++ rest)))
    (hws : separators ws) (hk : bareToken k) (hrest : endsToken rest) :
    ScanKeyval unq d
      = some ({ d with key := some k, value := none,
                       pos := pre.length + ws.length + k.length }, true) := by
  rw [ScanKeyval_skip unq d pre ws _ herr hpos hline hws (bareToken_head _ hk),
    scanKey_flag unq _ _ (pre ++ ws) k rest (by simp) (by simp) hk hrest]
  simp

theorem ScanKeyval_emptyValue (unq : List Nat → Option (List Nat)) (d : Decoder)
    (pre ws k rest : List Nat) (herr : d.err = none) (hpos : d.pos = pre.length)
    (hline : d.s.Bytes = pre ++ (ws ++ (k ++ 0x3d :: rest)))
    (hws : separators ws) (hk : bareToken k) (hrest : endsToken rest) :
    ScanKeyval unq d
      = some ({ d with key := some k, value := none,
                       pos := pre.length + ws.length + k.length + 1 }, true) := by
  rw [ScanKeyval_skip unq d pre ws _ herr hpos hline hws (bareToken_head _ hk),
    scanKey_equal unq _ _ (pre ++ ws) k rest (by simp) (by simp) hk,
    scanEqual_end unq _ _ ((pre ++ ws) ++ k) rest (by simp) (by simp [Nat.add_assoc]) hrest]
  simp [Nat.add_assoc]

theorem ScanKeyval_quoted (unq : List Nat → Option (List Nat)) (d : Decoder)
    (pre ws k q rest : List Nat) (herr : d.err = none) (hpos : d.pos = pre.length)
    (hline : d.s.Bytes = pre ++ (ws ++ (k ++ 0x3d :: 0x22 :: (q ++ 0x22 :: rest))))
    (hws : separators ws) (hk : bareToken k) (hq : plainQuoted q) :
    ScanKeyval unq d
      = some ({ d with key := some k, value := if q = [] then none else some q,
                       pos := pre.length + ws.length + k.length + q.length + 3 }, true) := by
  rw [ScanKeyval_skip unq d pre ws _ herr hpos hline hws (bareToken_head _ hk),
    scanKey_equal unq _ _ (pre ++ ws) k (0x22 :: (q ++ 0x22 :: rest)) (by simp) (by simp) hk,
    scanEqual_next unq _ _ ((pre ++ ws) ++ k) (q ++ 0x22 :: rest) 0x22 (by simp)
      (by simp [Nat.add_assoc]) (by decide),
    if_pos rfl,
    scanQvalue_plain unq _ _ (((pre ++ ws) ++ k) ++ [0x3d]) q rest (by simp)
      (by simp [Nat.add_assoc]) hq]
  simp [Nat.add_assoc]
  omega

theorem ScanKeyval_unterminated (unq : List Nat → Option (List Nat)) (d : Decoder)
    (pre ws k r : List Nat) (herr : d.err = none) (hpos : d.pos = pre.length)
    (hline : d.s.Bytes = pre ++ (ws ++ (k ++ 0x3d :: 0x22 :: r)))
    (hws : separators ws) (hk : bareToken k) (hr : noUnescapedQuote r) :
    ScanKeyval unq d
      = some ({ d with key := some k, value := none, pos := d.s.Bytes.length,
                       err := some (.syntaxErr
                         { Msg := untermQuote, Line := d.lineNum,
                           Pos := d.s.Bytes.length + 1 }) }, false) := by
  rw [ScanKeyval_skip unq d pre ws _ herr hpos hline hws (bareToken_head _ hk),
    scanKey_equal unq _ _ (pre ++ ws) k (0x22 :: r) (by simp) (by simp) hk,
    scanEqual_next unq _ _ ((pre ++ ws) ++ k) r 0x22 (by simp) (by simp [Nat.add_assoc])
      (by decide),
    if_pos rfl,
    scanQvalue_open unq _ _ (((pre ++ ws) ++ k) ++ [0x3d]) r (by simp)
      (by simp [Nat.add_assoc]) hr]
  simp [syntaxError, hline]

theorem ScanKeyval_keyQuote (unq : List Nat → Option (List Nat)) (d : Decoder)
    (pre ws k rest : List Nat) (herr : d.err = none) (hpos : d.pos = pre.length)
    (hline : d.s.Bytes = pre ++ (ws ++ (k ++ 0x22 :: rest)))
    (hws : separators ws) (hk : bareBytes k) :
    ScanKeyval unq d
      = some (unexpectedByte { d with key := none, value := none,
                                      pos := pre.length + ws.length + k.length } 0x22,
              false) := by
  have hhead : ∃ c, (k ++ 0x22 :: rest).head? = some c ∧ 0x20 < c := by
    cases k with
    | nil => exact ⟨0x22, by simp, by decide⟩
    | cons c t => exact ⟨c, by simp, (hk c (by simp)).1⟩
  rw [ScanKeyval_skip unq d pre ws _ herr hpos hline hws hhead,
    scanKey_quote unq _ _ (pre ++ ws) k rest (by simp) (by simp) hk]
  simp

theorem ScanKeyval_equalFirst (unq : List Nat → Option (List Nat)) (d : Decoder)
    (pre ws rest : List Nat) (herr : d.err = none) (hpos : d.pos = pre.length)
    (hline : d.s.Bytes = pre ++ (ws ++ 0x3d :: rest)) (hws : separators ws) :
    ScanKeyval unq d
      = some (unexpectedByte { d with key := none, value := none,
                                      pos := pre.length + ws.length } 0x3d,
              false) := by
  rw [ScanKeyval_skip unq d pre ws _ herr hpos hline hws ⟨0x3d, by simp, by decide⟩,
    scanKey_equal_first unq _ _ (pre ++ ws) rest (by simp) (by simp) rfl]

theorem ScanKeyval_valueReserved (unq : List Nat → Option (List Nat)) (d : Decoder)
    (pre ws k v rest : List Nat) (c : Nat) (herr : d.err = none) (hpos : d.pos = pre.length)
    (hline : d.s.Bytes = pre ++ (ws ++ (k ++ 0x3d :: (v ++ c :: rest))))
    (hws : separators ws) (hk : bareToken k) (hv : bareBytes v)
    (hc : c = 0x3d ∨ (c = 0x22 ∧ v ≠ [])) :
    ScanKeyval unq d
      = some (unexpectedByte { d with key := some k, value := none,
                                      pos := pre.length + ws.length + k.length + 1 + v.length } c,
              false) := by
  obtain ⟨x, t, hxt, hx1, hx2⟩ : ∃ x t, v ++ c :: rest = x :: t ∧ 0x20 < x ∧ x ≠ 0x22 := by
    cases v with
    | nil =>
      rcases hc with h | ⟨_, h⟩
      · exact ⟨c, rest, rfl, by omega, by omega⟩
      · exact absurd rfl h
    | cons y ys =>
      have := hv y (by simp)
      exact ⟨y, ys ++ c :: rest, rfl, this.1, this.2.2⟩
  have hc2 : c = 0x3d ∨ c = 0x22 := by
    rcases hc with h | ⟨h, _⟩
    · exact Or.inl h
    · exact Or.inr h
  rw [ScanKeyval_skip unq d pre ws _ herr hpos hline hws (bareToken_head _ hk),
    scanKey_equal unq _ _ (pre ++ ws) k (v ++ c :: rest) (by simp) (by simp) hk,
    scanEqual_next unq _ _ ((pre ++ ws) ++ k) t x (by simp [hxt])
      (by simp [Nat.add_assoc]) hx1,
    if_neg hx2,
    scanValue_unexpected _ _ (((pre ++ ws) ++ k) ++ [0x3d]) v rest c (by simp)
      (by simp [Nat.add_assoc]) hv hc2]
  simp [Nat.add_assoc]

/-! ## Successive calls over a well-formed line -/

theorem joinTokens_cons (p : List Nat × List Nat) (ps : List (List Nat × List Nat)) :
    joinTokens (p :: ps) = p.1 ++ 0x3d :: (p.2 ++ spacedTokens ps) := by
  induction ps generalizing p with
  | nil => simp [joinTokens, List.intercalate, spacedTokens]
  | cons q qs ih =>
    have h := ih q
    simp only [joinTokens, List.intercalate, List.map_cons, List.intersperse_cons₂,
      List.flatten_cons] at h ⊢
    simp [h, spacedTokens]

theorem endsToken_spacedTokens (ps : List (List Nat × List Nat)) :
    endsToken (spacedTokens ps) := by
  intro c hc
  cases ps with
  | nil => simp [spacedTokens] at hc
  | cons p ps =>
    simp [spacedTokens] at hc
    omega

theorem scanKeyvals_step (unq : List Nat → Option (List Nat)) (n : Nat) (d d1 d2 : Decoder)
    (ok : Bool) (seen : List (Bool × Bytes × Bytes))
    (h : ScanKeyval unq d = some (d1, ok)) (hn : scanKeyvals unq n d1 = some (seen, d2)) :
    scanKeyvals unq (n + 1) d = some ((ok, d1.Key, d1.Value) :: seen, d2) := by
  simp only [scanKeyvals, h, hn]

theorem scanKeyvals_spaced (unq : List Nat → Option (List Nat))
    (ps : List (List Nat × List Nat)) :
    ∀ (pre : List Nat) (d : Decoder), d.err = none → d.pos = pre.length →
      d.s.Bytes = pre ++ spacedTokens ps → (∀ p ∈ ps, bareToken p.1 ∧ bareToken p.2) →
      ∃ d1, scanKeyvals unq (ps.length + 1) d
          = some (ps.map (fun p => (true, some p.1, some p.2)) ++ [(false, none, none)], d1)
        ∧ d1.err = none ∧ d1.pos = (pre ++ spacedTokens ps).length := by
  induction ps with
  | nil =>
    intro pre d herr hpos hline _
    have h := ScanKeyval_end unq d pre [] herr hpos (by simpa [spacedTokens] using hline)
      (by intro c hc; simp at hc)
    refine ⟨_, scanKeyvals_step unq 0 d _ _ false [] h rfl, ?_, ?_⟩
    · simpa using herr
    · simp [spacedTokens]
  | cons p ps ih =>
    intro pre d herr hpos hline hps
    obtain ⟨hk, hv⟩ := hps p (by simp)
    have h := ScanKeyval_pair unq d pre [0x20] p.1 p.2 (spacedTokens ps) herr hpos
      (by simpa [spacedTokens] using hline) (by intro c hc; simp at hc; omega) hk hv
      (endsToken_spacedTokens ps)
    obtain ⟨d1, h1, h2, h3⟩ := ih (pre ++ 0x20 :: (p.1 ++ 0x3d :: p.2)) _
      (show ({ d with key := some p.1, value := some p.2,
                      pos := pre.length + [0x20].length + p.1.length + 1 + p.2.length }
              : Decoder).err = none from herr)
      (by simp; omega) (by simpa [spacedTokens] using hline)
      (fun q hq => hps q (by simp [hq]))
    refine ⟨d1, scanKeyvals_step unq _ d _ _ true _ h h1, h2, ?_⟩
    simpa [spacedTokens] using h3

/-! ## What `ScanKeyval` leaves untouched -/

theorem setKey_lineNum {d d1 : Decoder} {line : List Nat} {start : Nat}
    (h : setKey d line start = some d1) : d1.lineNum = d.lineNum ∧ d1.s = d.s := by
  unfold setKey at h
  split at h
  · split at h
    · cases h
    · cases h; exact ⟨rfl, rfl⟩
  · cases h; exact ⟨rfl, rfl⟩

theorem setValue_lineNum {d d1 : Decoder} {line : List Nat} {start : Nat}
    (h : setValue d line start = some d1) : d1.lineNum = d.lineNum ∧ d1.s = d.s := by
  unfold setValue at h
  split at h
  · split at h
    · cases h
    · cases h; exact ⟨rfl, rfl⟩
  · cases h; exact ⟨rfl, rfl⟩

theorem scanValue_lineNum {d d1 : Decoder} {line : List Nat} {ok : Bool}
    (h : scanValue d line = some (d1, ok)) : d1.lineNum = d.lineNum ∧ d1.s = d.s := by
  unfold scanValue at h
  simp only at h
  split at h
  · cases h
  · split at h
    · cases h; exact ⟨rfl, rfl⟩
    · split at h
      · cases h
      · next hs => cases h; have hf := setValue_lineNum hs; exact hf
    · split at h
      · cases h
      · next hs => cases h; have hf := setValue_lineNum hs; exact hf

theorem scanQvalue_lineNum {unq : List Nat → Option (List Nat)} {d d1 : Decoder}
    {line : List Nat} {ok : Bool}
    (h : scanQvalue unq d line = some (d1, ok)) : d1.lineNum = d.lineNum ∧ d1.s = d.s := by
  unfold scanQvalue at h
  simp only at h
  split at h
  · cases h
  · split at h
    · split at h
      · split at h
        · cases h
        · split at h <;> (cases h; exact ⟨rfl, rfl⟩)
      · split at h
        · split at h
          · cases h
          · cases h; exact ⟨rfl, rfl⟩
        · cases h; exact ⟨rfl, rfl⟩
    · cases h; exact ⟨rfl, rfl⟩

theorem scanEqual_lineNum {unq : List Nat → Option (List Nat)} {d d1 : Decoder}
    {line : List Nat} {ok : Bool}
    (h : scanEqual unq d line = some (d1, ok)) : d1.lineNum = d.lineNum ∧ d1.s = d.s := by
  unfold scanEqual at h
  simp only at h
  split at h
  · cases h; exact ⟨rfl, rfl⟩
  · split at h
    · cases h
    · split at h
      · cases h; exact ⟨rfl, rfl⟩
      · split at h
        · have hf := scanQvalue_lineNum h; exact hf
        · have hf := scanValue_lineNum h; exact hf

theorem scanKey_lineNum {unq : List Nat → Option (List Nat)} {d d1 : Decoder}
    {line : List Nat} {ok : Bool}
    (h : scanKey unq d line = some (d1, ok)) : d1.lineNum = d.lineNum ∧ d1.s = d.s := by
  unfold scanKey at h
  simp only at h
  split at h
  · cases h
  · split at h
    · split at h
      · cases h
      · next hs =>
        have hk := setKey_lineNum hs
        split at h
        · cases h; exact hk
        · have he := scanEqual_lineNum h
          exact ⟨he.1.trans hk.1, he.2.trans hk.2⟩
    · cases h; exact ⟨rfl, rfl⟩
    · split at h
      · cases h
      · next hs => cases h; have hf := setKey_lineNum hs; exact hf
    · split at h
      · cases h
      · next hs => cases h; have hf := setKey_lineNum hs; exact hf

theorem ScanKeyval_lineNum {unq : List Nat → Option (List Nat)} {d d1 : Decoder} {ok : Bool}
    (h : ScanKeyval unq d = some (d1, ok)) : d1.lineNum = d.lineNum ∧ d1.s = d.s := by
  unfold ScanKeyval at h
  simp only at h
  split at h
  · cases h; exact ⟨rfl, rfl⟩
  · split at h
    · cases h
    · split at h
      · have hf := scanKey_lineNum h; exact hf
      · cases h; exact ⟨rfl, rfl⟩

/-! ## The claims -/

/-- C1: on the line made of the tokens `k_i=v_i` joined by single spaces, every
`k_i` and `v_i` a bare token, with cursor 0 and no error, `n + 1` successive
calls of `ScanKeyval` return `true` exactly `n` times, the i-th call leaving
`Key() = k_i` and `Value() = v_i`, and the last call returns `false` with
`Err()` still nil and the cursor at the end of the line. -/
theorem C1_wellformed_line_yields_pairs (unq : List Nat → Option (List Nat))
    (pairs : List (List Nat × List Nat)) (d : Decoder)
    (hpairs : ∀ p ∈ pairs, bareToken p.1 ∧ bareToken p.2)
    (herr : d.Err = none) (hpos : d.pos = 0) (hline : d.s.Bytes = joinTokens pairs) :
    ∃ d1, scanKeyvals unq (pairs.length + 1) d
        = some (pairs.map (fun p => (true, some p.1, some p.2)) ++ [(false, none, none)], d1)
      ∧ d1.Err = none ∧ d1.pos = (joinTokens pairs).length := by
  cases pairs with
  | nil =>
    have hj : joinTokens [] = [] := by simp [joinTokens, List.intercalate]
    obtain ⟨d1, h1, h2, h3⟩ := scanKeyvals_spaced unq [] [] d herr hpos
      (by simpa [hj, spacedTokens] using hline) (by intro p hp; simp at hp)
    exact ⟨d1, h1, h2, by simpa [hj, spacedTokens] using h3⟩
  | cons p ps =>
    obtain ⟨hk, hv⟩ := hpairs p (by simp)
    rw [joinTokens_cons] at hline ⊢
    have h := ScanKeyval_pair unq d [] [] p.1 p.2 (spacedTokens ps) herr hpos
      (by simpa using hline) (by intro c hc; simp at hc) hk hv (endsToken_spacedTokens ps)
    obtain ⟨d1, h1, h2, h3⟩ := scanKeyvals_spaced unq ps (p.1 ++ 0x3d :: p.2) _
      (show ({ d with key := some p.1, value := some p.2,
                      pos := ([] : List Nat).length + ([] : List Nat).length
                        + p.1.length + 1 + p.2.length } : Decoder).err = none from herr)
      (by simp; omega) (by simpa using hline)
      (fun q hq => hpairs q (by simp [hq]))
    exact ⟨d1, scanKeyvals_step unq _ d _ _ true _ h h1, h2, by simpa using h3⟩

/-- Witness of C1 on the line `a=1 b=2`. -/
theorem C1_wellformed_line_yields_pairs_witness :
    ∃ d1, scanKeyvals unquoteBytes 3 (firstRecord [0x61, 0x3d, 0x31, 0x20, 0x62, 0x3d, 0x32])
        = some ([(true, some [0x61], some [0x31]), (true, some [0x62], some [0x32]),
                 (false, none, none)], d1)
      ∧ d1.Err = none ∧ d1.pos = 7 :=
  C1_wellformed_line_yields_pairs unquoteBytes [([0x61], [0x31]), ([0x62], [0x32])]
    (firstRecord [0x61, 0x3d, 0x31, 0x20, 0x62, 0x3d, 0x32]) (by decide) rfl rfl rfl

theorem ScanRecord_failed (d : Decoder) (e : Error) (herr : d.err = some e) :
    ScanRecord d = (d, false) := by
  simp [ScanRecord, herr]

theorem ScanKeyval_failed (unq : List Nat → Option (List Nat)) (d : Decoder) (e : Error)
    (herr : d.err = some e) :
    ScanKeyval unq d = some ({ d with key := none, value := none }, false) := by
  simp [ScanKeyval, herr]

theorem run_failed (unq : List Nat → Option (List Nat)) (e : Error) (calls : List Call) :
    ∀ d : Decoder, d.err = some e →
      ∃ d1, run unq d calls = some (d1, calls.map fun _ => false)
        ∧ d1.err = some e ∧ d1.pos = d.pos ∧ d1.lineNum = d.lineNum ∧ d1.s = d.s := by
  induction calls with
  | nil => intro d herr; exact ⟨d, rfl, herr, rfl, rfl, rfl⟩
  | cons c cs ih =>
    intro d herr
    cases c with
    | record =>
      obtain ⟨d1, h1, h2, h3, h4, h5⟩ := ih d herr
      refine ⟨d1, ?_, h2, h3, h4, h5⟩
      simp [run, advance, ScanRecord_failed d e herr, h1]
    | keyval =>
      obtain ⟨d1, h1, h2, h3, h4, h5⟩ := ih { d with key := none, value := none } herr
      refine ⟨d1, ?_, h2, h3, h4, h5⟩
      simp [run, advance, ScanKeyval_failed unq d e herr, h1]

/-- C2: sticky failure.  In a decoder whose error is set, `ScanRecord` returns
`false` and changes nothing, `ScanKeyval` returns `false` and changes nothing
but the cleared key and value, and every finite sequence of advance calls
returns `false` at each call and leaves the stored error, the cursor, the line
number and the line source as they were. -/
theorem C2_sticky_failure (unq : List Nat → Option (List Nat)) (d : Decoder) (e : Error)
    (herr : d.Err = some e) :
    ScanRecord d = (d, false)
      ∧ ScanKeyval unq d = some ({ d with key := none, value := none }, false)
      ∧ ∀ calls : List Call,
          ∃ d1, run unq d calls = some (d1, calls.map fun _ => false)
            ∧ d1.Err = some e ∧ d1.pos = d.pos ∧ d1.lineNum = d.lineNum ∧ d1.s = d.s :=
  ⟨ScanRecord_failed d e herr, ScanKeyval_failed unq d e herr,
    fun calls => run_failed unq e calls d herr⟩

/-- Witness of C2: the error left by scanning `k=a=b`, then three more calls. -/
theorem C2_sticky_failure_witness :
    ∃ d1, run unquoteBytes
          { firstRecord [0x6b, 0x3d, 0x61, 0x3d, 0x62] with
            pos := 3, key := some [0x6b],
            err := some (.syntaxErr { Msg := "unexpected '='", Line := 1, Pos := 4 }) }
          [.keyval, .record, .keyval]
        = some (d1, [false, false, false])
      ∧ d1.Err = some (.syntaxErr { Msg := "unexpected '='", Line := 1, Pos := 4 })
      ∧ d1.pos = 3 ∧ d1.lineNum = 1 :=
  let ⟨d1, h1, h2, h3, h4, _⟩ :=
    (C2_sticky_failure unquoteBytes
      { firstRecord [0x6b, 0x3d, 0x61, 0x3d, 0x62] with
        pos := 3, key := some [0x6b],
        err := some (.syntaxErr { Msg := "unexpected '='", Line := 1, Pos := 4 }) }
      (.syntaxErr { Msg := "unexpected '='", Line := 1, Pos := 4 }) rfl).2.2
      [.keyval, .record, .keyval]
  ⟨d1, h1, h2, h3, h4⟩

/-- C3, counterexample: on the line `flag=` the call returns `true` with the key
`flag`, but `Value()` is not a present empty slice. -/
theorem C3_counterexample :
    ¬ ∃ d1, ScanKeyval unquoteBytes (firstRecord [0x66, 0x6c, 0x61, 0x67, 0x3d])
              = some (d1, true)
        ∧ d1.Key = some [0x66, 0x6c, 0x61, 0x67] ∧ d1.Value = some [] := by
  rintro ⟨d1, h, -, hv⟩
  have e : ScanKeyval unquoteBytes (firstRecord [0x66, 0x6c, 0x61, 0x67, 0x3d])
      = some ({ firstRecord [0x66, 0x6c, 0x61, 0x67, 0x3d] with
                key := some [0x66, 0x6c, 0x61, 0x67], value := none, pos := 5 }, true) := by
    decide
  rw [e] at h
  cases h
  cases hv

/-- C3, amended: for every bare key `k`, `ScanKeyval` on the line `k` returns
`true` with `Key() = k` and `Value()` absent, and on the line `k=` it returns
`true` with `Key() = k` and `Value()` absent as well; the two results differ in
the cursor only, `len(k)` against `len(k)+1`. -/
theorem C3_flag_and_empty_value (unq : List Nat → Option (List Nat)) (k : List Nat)
    (d d2 : Decoder) (hk : bareToken k)
    (herr : d.Err = none) (hpos : d.pos = 0) (hline : d.s.Bytes = k)
    (herr2 : d2.Err = none) (hpos2 : d2.pos = 0) (hline2 : d2.s.Bytes = k ++ [0x3d]) :
    ScanKeyval unq d = some ({ d with key := some k, value := none, pos := k.length }, true)
      ∧ ScanKeyval unq d2
        = some ({ d2 with key := some k, value := none, pos := k.length + 1 }, true) := by
  constructor
  · have h := ScanKeyval_flag unq d [] [] k [] herr hpos (by simpa using hline)
      (by intro c hc; simp at hc) hk (by intro c hc; simp at hc)
    simpa using h
  · have h := ScanKeyval_emptyValue unq d2 [] [] k [] herr2 hpos2 (by simpa using hline2)
      (by intro c hc; simp at hc) hk (by intro c hc; simp at hc)
    simpa using h

/-- Witness of C3 on the lines `flag` and `flag=`. -/
theorem C3_flag_and_empty_value_witness :
    ScanKeyval unquoteBytes (firstRecord [0x66, 0x6c, 0x61, 0x67])
        = some ({ firstRecord [0x66, 0x6c, 0x61, 0x67] with
                  key := some [0x66, 0x6c, 0x61, 0x67], value := none, pos := 4 }, true)
      ∧ ScanKeyval unquoteBytes (firstRecord [0x66, 0x6c, 0x61, 0x67, 0x3d])
        = some ({ firstRecord [0x66, 0x6c, 0x61, 0x67, 0x3d] with
                  key := some [0x66, 0x6c, 0x61, 0x67], value := none, pos := 5 }, true) :=
  C3_flag_and_empty_value unquoteBytes [0x66, 0x6c, 0x61, 0x67]
    (firstRecord [0x66, 0x6c, 0x61, 0x67]) (firstRecord [0x66, 0x6c, 0x61, 0x67, 0x3d])
    (by decide) rfl rfl rfl rfl rfl rfl

/-- C4, counterexample: on the line `k=""` the call does not leave a present
empty `Value()`. -/
theorem C4_counterexample :
    ¬ ∃ d1, ScanKeyval unquoteBytes (firstRecord [0x6b, 0x3d, 0x22, 0x22]) = some (d1, true)
        ∧ d1.Err = none ∧ d1.Key = some [0x6b] ∧ d1.Value = some [] := by
  rintro ⟨d1, h, -, -, hv⟩
  have e : ScanKeyval unquoteBytes (firstRecord [0x6b, 0x3d, 0x22, 0x22])
      = some ({ firstRecord [0x6b, 0x3d, 0x22, 0x22] with
                key := some [0x6b], value := none, pos := 4 }, true) := by
    decide
  rw [e] at h
  cases h
  cases hv

/-- C4, amended: for every bare key `k`, `ScanKeyval` on the line `k=""` returns
`true` with no error, `Key() = k` and the cursor after the closing quote, and
`Value()` is absent (nil), the same as for a bare flag key. -/
theorem C4_empty_quoted_value (unq : List Nat → Option (List Nat)) (k : List Nat)
    (d : Decoder) (hk : bareToken k)
    (herr : d.Err = none) (hpos : d.pos = 0) (hline : d.s.Bytes = k ++ [0x3d, 0x22, 0x22]) :
    ∃ d1, ScanKeyval unq d = some (d1, true)
      ∧ d1.Err = none ∧ d1.Key = some k ∧ d1.Value = none ∧ d1.pos = k.length + 3 := by
  have h := ScanKeyval_quoted unq d [] [] k [] [] herr hpos (by simpa using hline)
    (by intro c hc; simp at hc) hk (by intro c hc; simp at hc)
  refine ⟨_, h, herr, rfl, ?_, ?_⟩ <;> simp [Decoder.Value]

/-- Witness of C4 on the line `k=""`. -/
theorem C4_empty_quoted_value_witness :
    ∃ d1, ScanKeyval unquoteBytes (firstRecord [0x6b, 0x3d, 0x22, 0x22]) = some (d1, true)
      ∧ d1.Err = none ∧ d1.Key = some [0x6b] ∧ d1.Value = none ∧ d1.pos = 4 :=
  C4_empty_quoted_value unquoteBytes [0x6b] (firstRecord [0x6b, 0x3d, 0x22, 0x22])
    (by decide) rfl rfl rfl

/-- C5: for every bare key `k` and every `r` without an unescaped double quote,
`ScanKeyval` on the line `k="r` with cursor 0 and no error returns `false` and
sets a `SyntaxError` with `Msg = "unterminated quoted value"`, `Line` the
current line number and `Pos = len(line)+1`. -/
theorem C5_unterminated_quoted_value (unq : List Nat → Option (List Nat)) (k r : List Nat)
    (d : Decoder) (hk : bareToken k) (hr : noUnescapedQuote r)
    (herr : d.Err = none) (hpos : d.pos = 0) (hline : d.s.Bytes = k ++ 0x3d :: 0x22 :: r) :
    ∃ d1, ScanKeyval unq d = some (d1, false)
      ∧ d1.Err = some (.syntaxErr
          { Msg := "unterminated quoted value", Line := d.lineNum,
            Pos := d.s.Bytes.length + 1 }) := by
  have h := ScanKeyval_unterminated unq d [] [] k r herr hpos (by simpa using hline)
    (by intro c hc; simp at hc) hk hr
  exact ⟨_, h, rfl⟩

/-- Witness of C5 on the line `k="abc`. -/
theorem C5_unterminated_quoted_value_witness :
    ∃ d1, ScanKeyval unquoteBytes (firstRecord [0x6b, 0x3d, 0x22, 0x61, 0x62, 0x63])
        = some (d1, false)
      ∧ d1.Err = some (.syntaxErr
          { Msg := "unterminated quoted value", Line := 1, Pos := 7 }) :=
  C5_unterminated_quoted_value unquoteBytes [0x6b] [0x61, 0x62, 0x63]
    (firstRecord [0x6b, 0x3d, 0x22, 0x61, 0x62, 0x63]) (by decide) (by decide) rfl rfl rfl

theorem fmtQ_equal : "unexpected " ++ fmtQ 0x3d = "unexpected '='" := by decide

theorem fmtQ_quote : "unexpected " ++ fmtQ 0x22 = "unexpected '\"'" := by decide

/-- C6: reserved bytes are reported.  With no error set and the cursor after
`pre`, let the unread part of the line be separators `ws`, then the bytes `t`
scanned so far, then the byte `c`, where either `t` is a run of key bytes and
`c` is the double quote, or `t` is empty and `c` is the equal sign, or `t` is a
bare key, an equal sign and the bytes of a bare value and `c` is an equal sign
or (after at least one value byte) a double quote.  Then `ScanKeyval` returns
`false` and sets a `SyntaxError` whose `Msg` is `unexpected` followed by the
quoted byte, whose `Line` is the current line number and whose `Pos` is the
1-based column of `c` in the line. -/
theorem C6_reserved_byte_reported (unq : List Nat → Option (List Nat)) (d : Decoder)
    (pre ws t rest : List Nat) (c : Nat)
    (herr : d.Err = none) (hpos : d.pos = pre.length)
    (hline : d.s.Bytes = pre ++ ws ++ t ++ c :: rest) (hws : separators ws)
    (hmeet : (bareBytes t ∧ c = 0x22) ∨ (t = [] ∧ c = 0x3d)
      ∨ ∃ k v, t = k ++ 0x3d :: v ∧ bareToken k ∧ bareBytes v
          ∧ (c = 0x3d ∨ (c = 0x22 ∧ v ≠ []))) :
    ∃ d1 e, ScanKeyval unq d = some (d1, false) ∧ d1.Err = some (.syntaxErr e)
      ∧ e.Msg = (if c = 0x3d then "unexpected '='" else "unexpected '\"'")
      ∧ e.Line = d.lineNum ∧ e.Pos = pre.length + ws.length + t.length + 1
      ∧ index d.s.Bytes (e.Pos - 1).toNat = some c := by
  have hidx : index d.s.Bytes (pre.length + ws.length + t.length) = some c := by
    rw [hline]
    have h := index_append (pre ++ ws ++ t) c rest
    simpa [Nat.add_assoc] using h
  have hcol : ∀ p : Nat, p = pre.length + ws.length + t.length →
      ((p : Int) + 1 = pre.length + ws.length + t.length + 1)
        ∧ index d.s.Bytes ((p : Int) + 1 - 1).toNat = some c := by
    intro p hp
    subst hp
    have e : (((pre.length + ws.length + t.length : Nat) : Int) + 1 - 1).toNat
        = pre.length + ws.length + t.length := by omega
    rw [e]
    exact ⟨by push_cast; rfl, hidx⟩
  rcases hmeet with ⟨ht, hc⟩ | ⟨ht, hc⟩ | ⟨k, v, ht, hk, hv, hc⟩
  · subst hc
    have h := ScanKeyval_keyQuote unq d pre ws t rest herr hpos (by simpa using hline) hws ht
    have hp := hcol (pre.length + ws.length + t.length) rfl
    exact ⟨_, _, h, rfl, by simpa using fmtQ_quote, rfl, hp.1, hp.2⟩
  · subst hc ht
    have h := ScanKeyval_equalFirst unq d pre ws rest herr hpos (by simpa using hline) hws
    have hp := hcol (pre.length + ws.length) (by simp)
    exact ⟨_, _, h, rfl, by simpa using fmtQ_equal, rfl, hp.1, hp.2⟩
  · subst ht
    have h := ScanKeyval_valueReserved unq d pre ws k v rest c herr hpos
      (by simpa using hline) hws hk hv hc
    have hp := hcol (pre.length + ws.length + k.length + 1 + v.length) (by simp; omega)
    refine ⟨_, _, h, rfl, ?_, rfl, hp.1, hp.2⟩
    rcases hc with hc | ⟨hc, -⟩
    · subst hc; simpa using fmtQ_equal
    · subst hc; simpa using fmtQ_quote

/-- Witness of C6 on the lines `k=a=b` (column 4) and `k"=v` (column 2). -/
theorem C6_reserved_byte_reported_witness :
    (∃ d1 e, ScanKeyval unquoteBytes (firstRecord [0x6b, 0x3d, 0x61, 0x3d, 0x62])
          = some (d1, false)
        ∧ d1.Err = some (.syntaxErr e) ∧ e.Msg = "unexpected '='" ∧ e.Line = 1 ∧ e.Pos = 4
        ∧ index [0x6b, 0x3d, 0x61, 0x3d, 0x62] (e.Pos - 1).toNat = some 0x3d)
      ∧ ∃ d1 e, ScanKeyval unquoteBytes (firstRecord [0x6b, 0x22, 0x3d, 0x76])
          = some (d1, false)
        ∧ d1.Err = some (.syntaxErr e) ∧ e.Msg = "unexpected '\"'" ∧ e.Line = 1 ∧ e.Pos = 2
        ∧ index [0x6b, 0x22, 0x3d, 0x76] (e.Pos - 1).toNat = some 0x22 :=
  ⟨C6_reserved_byte_reported unquoteBytes (firstRecord [0x6b, 0x3d, 0x61, 0x3d, 0x62])
      [] [] [0x6b, 0x3d, 0x61] [0x62] 0x3d rfl rfl rfl (by decide)
      (Or.inr (Or.inr ⟨[0x6b], [0x61], rfl, by decide, by decide, Or.inl rfl⟩)),
    C6_reserved_byte_reported unquoteBytes (firstRecord [0x6b, 0x22, 0x3d, 0x76])
      [] [] [0x6b] [0x3d, 0x76] 0x22 rfl rfl rfl (by decide)
      (Or.inl ⟨by decide, rfl⟩)⟩

/-- C8: for every bare key `k` and every `q` without double quote and
backslash, `ScanKeyval` on the line `k="q"` followed by any bytes, with cursor
0 and no error, returns `true` with `Key() = k`, with `Value() = q` when `q` is
not empty, with no error and with the cursor just after the closing quote. -/
theorem C8_plain_quoted_value (unq : List Nat → Option (List Nat)) (k q rest : List Nat)
    (d : Decoder) (hk : bareToken k) (hq : plainQuoted q)
    (herr : d.Err = none) (hpos : d.pos = 0)
    (hline : d.s.Bytes = k ++ 0x3d :: 0x22 :: q ++ 0x22 :: rest) :
    ∃ d1, ScanKeyval unq d = some (d1, true)
      ∧ d1.Key = some k ∧ (q ≠ [] → d1.Value = some q) ∧ d1.Err = none
      ∧ d1.pos = k.length + q.length + 3 := by
  have h := ScanKeyval_quoted unq d [] [] k q rest herr hpos (by simpa using hline)
    (by intro c hc; simp at hc) hk hq
  refine ⟨_, h, rfl, ?_, herr, ?_⟩
  · intro hq0; simp [Decoder.Value, hq0]
  · simp

/-- Witness of C8 on the line `k="a b=c"x`. -/
theorem C8_plain_quoted_value_witness :
    ∃ d1, ScanKeyval unquoteBytes
          (firstRecord [0x6b, 0x3d, 0x22, 0x61, 0x20, 0x62, 0x3d, 0x63, 0x22, 0x78])
        = some (d1, true)
      ∧ d1.Key = some [0x6b]
      ∧ (([0x61, 0x20, 0x62, 0x3d, 0x63] : List Nat) ≠ []
          → d1.Value = some [0x61, 0x20, 0x62, 0x3d, 0x63])
      ∧ d1.Err = none ∧ d1.pos = 9 :=
  C8_plain_quoted_value unquoteBytes [0x6b] [0x61, 0x20, 0x62, 0x3d, 0x63] [0x78]
    (firstRecord [0x6b, 0x3d, 0x22, 0x61, 0x20, 0x62, 0x3d, 0x63, 0x22, 0x78])
    (by decide) (by decide) rfl rfl rfl

/-- C9: with no error set, when the fetch of `ScanRecord` from the line source
fails, `ScanRecord` returns `false`; `Err()` is then what the source reports:
nil after a clean end of input, the read failure otherwise; the line number and
the cursor are unchanged. -/
theorem C9_source_end_or_failure (d : Decoder) (herr : d.Err = none)
    (hfetch : d.s.Scan.2 = false) :
    (ScanRecord d).2 = false
      ∧ (ScanRecord d).1.Err = d.s.Scan.1.Err.map Error.source
      ∧ (d.s.failure = none → (ScanRecord d).1.Err = none)
      ∧ (∀ f, d.s.failure = some f → (ScanRecord d).1.Err = some (.source f))
      ∧ (ScanRecord d).1.lineNum = d.lineNum ∧ (ScanRecord d).1.pos = d.pos := by
  obtain ⟨pos, key, value, lineNum, s, err⟩ := d
  obtain ⟨pending, failure, token, serr⟩ := s
  simp only [Decoder.Err] at herr
  subst herr
  cases pending with
  | cons l rest => simp [Scanner.Scan] at hfetch
  | nil =>
    refine ⟨?_, ?_, ?_, ?_, ?_, ?_⟩ <;>
      simp [ScanRecord, Scanner.Scan, Scanner.Err, Decoder.Err]

/-- Witness of C9: a source that is empty and ends with a read failure. -/
theorem C9_source_end_or_failure_witness :
    (ScanRecord (NewDecoder [] (some "read failed"))).2 = false
      ∧ (ScanRecord (NewDecoder [] (some "read failed"))).1.Err
          = (NewDecoder [] (some "read failed")).s.Scan.1.Err.map Error.source
      ∧ ((NewDecoder [] (some "read failed")).s.failure = none
          → (ScanRecord (NewDecoder [] (some "read failed"))).1.Err = none)
      ∧ (∀ f, (NewDecoder [] (some "read failed")).s.failure = some f
          → (ScanRecord (NewDecoder [] (some "read failed"))).1.Err = some (.source f))
      ∧ (ScanRecord (NewDecoder [] (some "read failed"))).1.lineNum
          = (NewDecoder [] (some "read failed")).lineNum
      ∧ (ScanRecord (NewDecoder [] (some "read failed"))).1.pos
          = (NewDecoder [] (some "read failed")).pos :=
  C9_source_end_or_failure (NewDecoder [] (some "read failed")) rfl rfl

theorem ScanRecord_lineNum (d : Decoder) :
    (ScanRecord d).1.lineNum = d.lineNum + (if (ScanRecord d).2 = true then 1 else 0) := by
  unfold ScanRecord
  split
  · simp
  · split <;> simp

theorem run_lineNum (unq : List Nat → Option (List Nat)) (calls : List Call) :
    ∀ (d d1 : Decoder) (oks : List Bool), run unq d calls = some (d1, oks) →
      d1.lineNum = d.lineNum + recordsRead calls oks := by
  induction calls with
  | nil =>
    intro d d1 oks h
    simp only [run, Option.some.injEq, Prod.mk.injEq] at h
    obtain ⟨h1, h2⟩ := h
    subst h1 h2
    simp [recordsRead]
  | cons c cs ih =>
    intro d d1 oks h
    unfold run at h
    split at h
    · cases h
    · next d2 ok hadv =>
      split at h
      · cases h
      · next d3 oks3 hrun =>
        simp only [Option.some.injEq, Prod.mk.injEq] at h
        obtain ⟨h1, h2⟩ := h
        subst h1 h2
        have hrest := ih d2 d3 oks3 hrun
        cases c with
        | record =>
          simp only [advance, Option.some.injEq] at hadv
          have hl := ScanRecord_lineNum d
          rw [hadv] at hl
          simp only at hl
          cases ok <;> simp [recordsRead] at hl ⊢ <;> omega
        | keyval =>
          simp only [advance] at hadv
          have hl := (ScanKeyval_lineNum hadv).1
          cases ok <;> simp [recordsRead] <;> omega

/-- C10: with no error set and a next line `l` in the line source, `ScanRecord`
returns `true`, adds exactly 1 to the line number, sets the cursor to 0 and
makes `l` the current line.  Hence after any sequence of advance calls the line
number has grown by the number of `ScanRecord` calls that returned `true` (from
a new decoder it equals that number, so it is 1 in the first record), and
`ScanKeyval` never changes the line number. -/
theorem C10_record_advance (unq : List Nat → Option (List Nat)) (d : Decoder)
    (l : List Nat) (rest : List (List Nat))
    (herr : d.Err = none) (hnext : d.s.pending = l :: rest) :
    (ScanRecord d).2 = true
      ∧ (ScanRecord d).1.lineNum = d.lineNum + 1
      ∧ (ScanRecord d).1.pos = 0
      ∧ (ScanRecord d).1.s.Bytes = l
      ∧ (∀ (calls : List Call) (d1 : Decoder) (oks : List Bool),
          run unq d calls = some (d1, oks) → d1.lineNum = d.lineNum + recordsRead calls oks)
      ∧ (∀ (lines : List (List Nat)) (failure : Option String) (calls : List Call)
          (d1 : Decoder) (oks : List Bool),
          run unq (NewDecoder lines failure) calls = some (d1, oks) →
            d1.lineNum = recordsRead calls oks)
      ∧ (∀ (d0 d1 : Decoder) (ok : Bool),
          ScanKeyval unq d0 = some (d1, ok) → d1.lineNum = d0.lineNum) := by
  refine ⟨?_, ?_, ?_, ?_, fun calls d1 oks h => run_lineNum unq calls d d1 oks h, ?_,
    fun d0 d1 ok h => (ScanKeyval_lineNum h).1⟩
  · simp only [Decoder.Err] at herr
    simp [ScanRecord, herr, Scanner.Scan, hnext]
  · simp only [Decoder.Err] at herr
    simp [ScanRecord, herr, Scanner.Scan, hnext]
  · simp only [Decoder.Err] at herr
    simp [ScanRecord, herr, Scanner.Scan, hnext]
  · simp only [Decoder.Err] at herr
    simp [ScanRecord, herr, Scanner.Scan, hnext, Scanner.Bytes]
  · intro lines failure calls d1 oks h
    have := run_lineNum unq calls _ d1 oks h
    simpa [NewDecoder] using this

/-- Witness of C10: a new decoder over the two lines `a=1` and `b`, its first
record and a whole pass over both records. -/
theorem C10_record_advance_witness :
    (ScanRecord (NewDecoder [[0x61, 0x3d, 0x31], [0x62]] none)).2 = true
      ∧ (ScanRecord (NewDecoder [[0x61, 0x3d, 0x31], [0x62]] none)).1.lineNum = 0 + 1
      ∧ (ScanRecord (NewDecoder [[0x61, 0x3d, 0x31], [0x62]] none)).1.pos = 0
      ∧ (ScanRecord (NewDecoder [[0x61, 0x3d, 0x31], [0x62]] none)).1.s.Bytes
          = [0x61, 0x3d, 0x31]
      ∧ ∃ d1, run unquoteBytes (NewDecoder [[0x61, 0x3d, 0x31], [0x62]] none)
            [.record, .keyval, .keyval, .record, .keyval, .keyval, .record]
          = some (d1, [true, true, false, true, true, false, false])
        ∧ d1.lineNum = 2 :=
  let h := C10_record_advance unquoteBytes (NewDecoder [[0x61, 0x3d, 0x31], [0x62]] none)
    [0x61, 0x3d, 0x31] [[0x62]] rfl rfl
  ⟨h.1, h.2.1, h.2.2.1, h.2.2.2.1,
    { pos := 1, key := none, value := none, lineNum := 2,
      s := { pending := [], failure := none, token := [], err := none }, err := none },
    by decide,
    h.2.2.2.2.2.1 [[0x61, 0x3d, 0x31], [0x62]] none
      [.record, .keyval, .keyval, .record, .keyval, .keyval, .record] _
      [true, true, false, true, true, false, false] (by decide)⟩

/-! ## The quoted loop and escaped quotes -/

theorem quoteLoop_escaped (r rest : List Nat) (c : Nat) :
    ∀ (p : Nat) (hasEsc esc : Bool), escAfter esc r = some true →
      ∃ h1, quoteLoop (r ++ c :: rest) p hasEsc esc
        = quoteLoop rest (p + r.length + 1) h1 false := by
  induction r with
  | nil =>
    intro p hasEsc esc h
    simp only [escAfter, Option.some.injEq] at h
    subst h
    exact ⟨hasEsc, by simp [quoteLoop]⟩
  | cons x xs ih =>
    intro p hasEsc esc h
    have e : p + 1 + xs.length + 1 = p + (x :: xs).length + 1 := by simp; omega
    cases esc with
    | true =>
      simp only [escAfter] at h
      obtain ⟨h1, hq⟩ := ih (p + 1) hasEsc false h
      exact ⟨h1, by simp [quoteLoop, hq, e]⟩
    | false =>
      simp only [escAfter] at h
      by_cases hx : x = 0x5c
      · simp only [hx, if_true] at h
        obtain ⟨h1, hq⟩ := ih (p + 1) true true h
        exact ⟨h1, by simp [quoteLoop, hx, hq, e]⟩
      · simp only [hx, if_false] at h
        by_cases hx2 : x = 0x22
        · simp [hx2] at h
        · simp only [hx2, if_false] at h
          obtain ⟨h1, hq⟩ := ih (p + 1) hasEsc false h
          exact ⟨h1, by simp [quoteLoop, hx, hx2, hq, e]⟩

theorem quoteLoop_bounds (l : List Nat) :
    ∀ (p : Nat) (hasEsc esc : Bool) (i : Nat) (h1 : Bool),
      quoteLoop l p hasEsc esc = some (i, h1) → p ≤ i ∧ i < p + l.length := by
  induction l with
  | nil => intro p hasEsc esc i h1 h; simp [quoteLoop] at h
  | cons x xs ih =>
    intro p hasEsc esc i h1 h
    unfold quoteLoop at h
    split at h
    · have := ih _ _ _ _ _ h
      simp only [List.length_cons]; omega
    · split at h
      · have := ih _ _ _ _ _ h
        simp only [List.length_cons]; omega
      · split at h
        · simp only [Option.some.injEq, Prod.mk.injEq] at h
          simp only [List.length_cons]; omega
        · have := ih _ _ _ _ _ h
          simp only [List.length_cons]; omega

theorem slice_defined (line : List Nat) (lo hi : Nat) (h1 : lo ≤ hi) (h2 : hi ≤ line.length) :
    ∃ v, slice line lo hi = some v := by
  simp [slice, h1, h2]

theorem scanQvalue_true (unq : List Nat → Option (List Nat)) (d d1 : Decoder)
    (e body : List Nat) (hpos : d.pos = e.length)
    (h : scanQvalue unq d (e ++ 0x22 :: body) = some (d1, true)) :
    ∃ i h1, quoteLoop body 0 false false = some (i, h1) ∧ d1.pos = e.length + (i + 2) := by
  obtain ⟨pos, key, value, lineNum, s, err⟩ := d
  simp only at hpos; subst hpos
  simp only [scanQvalue, sliceFrom_next] at h
  split at h
  · next i h1 hq =>
    refine ⟨i, h1, hq, ?_⟩
    split at h
    · split at h
      · cases h
      · split at h
        · cases h
        · cases h; rfl
    · split at h
      · split at h
        · cases h
        · cases h; rfl
      · cases h; rfl
  · cases h

theorem scanQvalue_isSome (unq : List Nat → Option (List Nat)) (d : Decoder)
    (e body : List Nat) (hpos : d.pos = e.length) :
    (scanQvalue unq d (e ++ 0x22 :: body)).isSome = true := by
  obtain ⟨pos, key, value, lineNum, s, err⟩ := d
  simp only at hpos; subst hpos
  simp only [scanQvalue, sliceFrom_next]
  cases hq : quoteLoop body 0 false false with
  | none => simp
  | some r =>
    obtain ⟨i, h1⟩ := r
    have hb := quoteLoop_bounds body 0 false false i h1 hq
    cases h1 with
    | true =>
      obtain ⟨span, hspan⟩ := slice_defined (e ++ 0x22 :: body) e.length (e.length + (i + 2))
        (by omega) (by simp; omega)
      simp only [hspan, if_true]
      cases unq span <;> simp
    | false =>
      by_cases hi : 0 < i
      · obtain ⟨v, hv⟩ := slice_defined (e ++ 0x22 :: body) (e.length + 1)
          (e.length + (i + 1)) (by omega) (by simp; omega)
        simp [hv, hi]
      · simp [hi]

theorem scanQvalue_result (unq : List Nat → Option (List Nat)) (d : Decoder)
    (line e body : List Nat) (hline : line = e ++ 0x22 :: body) (hpos : d.pos = e.length) :
    ∃ d1 ok, scanQvalue unq d line = some (d1, ok)
      ∧ (ok = true → ∃ i h1, quoteLoop body 0 false false = some (i, h1)
          ∧ d1.pos = e.length + (i + 2)) := by
  subst hline
  have hs := scanQvalue_isSome unq d e body hpos
  cases hr : scanQvalue unq d (e ++ 0x22 :: body) with
  | none => simp [hr] at hs
  | some r =>
    obtain ⟨d1, ok⟩ := r
    refine ⟨d1, ok, rfl, ?_⟩
    intro hok
    subst hok
    exact scanQvalue_true unq d d1 e body hpos hr

theorem ScanKeyval_escapedQuote (unq : List Nat → Option (List Nat)) (k r rest : List Nat)
    (d : Decoder) (hk : bareToken k) (hr : escAfter false r = some true)
    (herr : d.err = none) (hpos : d.pos = 0)
    (hline : d.s.Bytes = k ++ 0x3d :: 0x22 :: r ++ 0x22 :: rest) :
    ∃ d1 ok, ScanKeyval unq d = some (d1, ok)
      ∧ (ok = true → k.length + r.length + 3 < d1.pos) := by
  have hl : d.s.Bytes = [] ++ ([] ++ (k ++ 0x3d :: 0x22 :: (r ++ 0x22 :: rest))) := by
    simpa using hline
  rw [ScanKeyval_skip unq d [] [] _ herr hpos hl (by intro c hc; simp at hc)
      (bareToken_head _ hk),
    scanKey_equal unq _ _ ([] ++ []) k (0x22 :: (r ++ 0x22 :: rest)) (by simp) (by simp) hk,
    scanEqual_next unq _ _ (([] ++ []) ++ k) (r ++ 0x22 :: rest) 0x22 (by simp)
      (by simp) (by decide),
    if_pos rfl]
  obtain ⟨d1, ok, h, hok⟩ := scanQvalue_result unq
    { d with key := some k, value := none, pos := k.length + 1 }
    ([] ++ ([] ++ (k ++ 0x3d :: 0x22 :: (r ++ 0x22 :: rest)))) (k ++ [0x3d])
    (r ++ 0x22 :: rest) (by simp) (by simp)
  refine ⟨d1, ok, by simpa using h, ?_⟩
  intro hok1
  obtain ⟨i, h1, hq, hp⟩ := hok hok1
  obtain ⟨h2, hq2⟩ := quoteLoop_escaped r rest 0x22 0 false false hr
  rw [hq2] at hq
  have hb := quoteLoop_bounds rest _ _ _ _ _ hq
  rw [hp]
  simp
  omega

/-- C7: an escaped quote does not close the value.  On the line `k="a\"b"` with
cursor 0 and no error, `unquoteBytes` turning the span `"a\"b"` into `a"b`,
`ScanKeyval` returns `true` with `Key() = k`, `Value() = a"b`, the cursor at the
end of the line (8) and no error.  In general, when the text `r` after the
opening quote holds no unescaped quote and ends in an unescaped backslash, the
double quote that follows `r` is not the closing quote: the call does not stop
there, and if it returns `true` the cursor is beyond the byte after that
quote. -/
theorem C7_escaped_quote_does_not_close (unq : List Nat → Option (List Nat)) (d : Decoder)
    (herr : d.Err = none) (hpos : d.pos = 0)
    (hline : d.s.Bytes = [0x6b, 0x3d, 0x22, 0x61, 0x5c, 0x22, 0x62, 0x22])
    (hunq : unq [0x22, 0x61, 0x5c, 0x22, 0x62, 0x22] = some [0x61, 0x22, 0x62]) :
    (∃ d1, ScanKeyval unq d = some (d1, true)
        ∧ d1.Key = some [0x6b] ∧ d1.Value = some [0x61, 0x22, 0x62]
        ∧ d1.pos = 8 ∧ d1.Err = none)
      ∧ ∀ (k r rest : List Nat) (d0 : Decoder), bareToken k → escAfter false r = some true →
          d0.Err = none → d0.pos = 0 → d0.s.Bytes = k ++ 0x3d :: 0x22 :: r ++ 0x22 :: rest →
          ∃ d1 ok, ScanKeyval unq d0 = some (d1, ok)
            ∧ (ok = true → k.length + r.length + 3 < d1.pos) := by
  constructor
  · obtain ⟨pos, key, value, lineNum, s, err⟩ := d
    simp only [Decoder.Err] at herr hpos hline
    subst herr hpos
    refine ⟨{ pos := 8, key := some [0x6b], value := some [0x61, 0x22, 0x62],
              lineNum := lineNum, s := s, err := none }, ?_, rfl, rfl, rfl, rfl⟩
    simp [ScanKeyval, hline, sliceFrom, garbageLoop, scanKey, keyLoop, setKey, slice,
      scanEqual, index, scanQvalue, quoteLoop, hunq]
  · intro k r rest d0 hk hr herr0 hpos0 hline0
    exact ScanKeyval_escapedQuote unq k r rest d0 hk hr herr0 hpos0 hline0

/-- Witness of C7 with the helper `unquoteBytes` modelled from the
specification. -/
theorem C7_escaped_quote_does_not_close_witness :
    (∃ d1, ScanKeyval unquoteBytes
          (firstRecord [0x6b, 0x3d, 0x22, 0x61, 0x5c, 0x22, 0x62, 0x22]) = some (d1, true)
        ∧ d1.Key = some [0x6b] ∧ d1.Value = some [0x61, 0x22, 0x62]
        ∧ d1.pos = 8 ∧ d1.Err = none)
      ∧ ∃ d1 ok, ScanKeyval unquoteBytes
            (firstRecord [0x6b, 0x3d, 0x22, 0x5c, 0x22, 0x22, 0x78]) = some (d1, ok)
          ∧ (ok = true → 1 + 1 + 3 < d1.pos) :=
  let h := C7_escaped_quote_does_not_close unquoteBytes
    (firstRecord [0x6b, 0x3d, 0x22, 0x61, 0x5c, 0x22, 0x62, 0x22]) rfl rfl rfl (by decide)
  ⟨h.1, h.2 [0x6b] [0x5c] [0x22, 0x78]
    (firstRecord [0x6b, 0x3d, 0x22, 0x5c, 0x22, 0x22, 0x78]) (by decide) (by decide)
    rfl rfl rfl⟩

/-! ## The text of a syntax error -/

theorem fmtD_decimal (i : Int) : fmtD i = (decimal i).data := by
  cases i <;> rfl

/-- C13: for every `SyntaxError`, `Error()` is the text `logfmt syntax error at
pos `, the decimal `Pos`, ` on line `, the decimal `Line`, `: ` and `Msg`, for
all integer values of `Line` and `Pos`, negative ones included. -/
theorem C13_error_text (e : SyntaxError) :
    e.Error = "logfmt syntax error at pos " ++ decimal e.Pos ++ " on line "
      ++ decimal e.Line ++ ": " ++ e.Msg := by
  apply String.ext
  have hf : ("logfmt syntax error at pos %d on line %d: %s" : String).data
      = ("logfmt syntax error at pos " : String).data ++ '%' :: 'd'
        :: (" on line " : String).data ++ '%' :: 'd' :: (": " : String).data ++ ['%', 's'] := by
    decide
  simp only [SyntaxError.Error, Sprintf, hf, String.data_append]
  simp [sprintfChars, fmtVerb, fmtD_decimal]

/-! ## A token right after a closing quote -/

/-- C20: no separator is required after a closing quote.  For bare keys `k` and
`k2`, a bare value `v` and a non-empty `q` without double quote and backslash,
three calls of `ScanKeyval` on the line `k="q"k2=v` from cursor 0 return `true`
with `(k, q)`, then `true` with `(k2, v)`, then `false` with no error. -/
theorem C20_token_abuts_closing_quote (unq : List Nat → Option (List Nat))
    (k q k2 v : List Nat) (d : Decoder)
    (hk : bareToken k) (hq : plainQuoted q) (hq0 : q ≠ []) (hk2 : bareToken k2)
    (hv : bareToken v) (herr : d.Err = none) (hpos : d.pos = 0)
    (hline : d.s.Bytes = k ++ 0x3d :: 0x22 :: q ++ 0x22 :: k2 ++ 0x3d :: v) :
    ∃ d1, scanKeyvals unq 3 d
        = some ([(true, some k, some q), (true, some k2, some v), (false, none, none)], d1)
      ∧ d1.Err = none := by
  have h1 := ScanKeyval_quoted unq d [] [] k q (k2 ++ 0x3d :: v) herr hpos
    (by simpa using hline) (by intro c hc; simp at hc) hk hq
  simp only [hq0, if_false] at h1
  have h2 := ScanKeyval_pair unq
    { d with key := some k, value := some q,
             pos := ([] : List Nat).length + ([] : List Nat).length + k.length + q.length + 3 }
    (k ++ 0x3d :: 0x22 :: q ++ [0x22]) [] k2 v [] herr (by simp; omega)
    (by simpa using hline) (by intro c hc; simp at hc) hk2 hv (by intro c hc; simp at hc)
  have h3 := ScanKeyval_end unq
    { d with key := some k2, value := some v,
             pos := (k ++ 0x3d :: 0x22 :: q ++ [0x22]).length + ([] : List Nat).length
               + k2.length + 1 + v.length }
    (k ++ 0x3d :: 0x22 :: q ++ 0x22 :: k2 ++ 0x3d :: v) [] herr (by simp; omega)
    (by simpa using hline) (by intro c hc; simp at hc)
  exact ⟨_, scanKeyvals_step unq 2 _ _ _ true _ h1
    (scanKeyvals_step unq 1 _ _ _ true _ h2 (scanKeyvals_step unq 0 _ _ _ false [] h3 rfl)),
    herr⟩

/-- Witness of C20 on the line `k="a"b=c`. -/
theorem C20_token_abuts_closing_quote_witness :
    ∃ d1, scanKeyvals unquoteBytes 3
          (firstRecord [0x6b, 0x3d, 0x22, 0x61, 0x22, 0x62, 0x3d, 0x63])
        = some ([(true, some [0x6b], some [0x61]), (true, some [0x62], some [0x63]),
                 (false, none, none)], d1)
      ∧ d1.Err = none :=
  C20_token_abuts_closing_quote unquoteBytes [0x6b] [0x61] [0x62] [0x63]
    (firstRecord [0x6b, 0x3d, 0x22, 0x61, 0x22, 0x62, 0x3d, 0x63])
    (by decide) (by decide) (by decide) (by decide) (by decide) rfl rfl rfl

/-! ## A quoted value that `unquoteBytes` rejects -/

theorem quoteLoop_closed (r rest : List Nat) :
    ∀ (p : Nat) (hasEsc esc : Bool), escAfter esc r = some false →
      ∃ h1, quoteLoop (r ++ 0x22 :: rest) p hasEsc esc = some (p + r.length, h1)
        ∧ (hasEsc = true → h1 = true) ∧ (esc = false → 0x5c ∈ r → h1 = true) := by
  induction r with
  | nil =>
    intro p hasEsc esc h
    simp only [escAfter, Option.some.injEq] at h
    subst h
    exact ⟨hasEsc, by simp [quoteLoop], id, by intro _ hm; simp at hm⟩
  | cons x xs ih =>
    intro p hasEsc esc h
    have e : p + 1 + xs.length = p + (x :: xs).length := by simp; omega
    cases esc with
    | true =>
      simp only [escAfter] at h
      obtain ⟨h1, hq, ha, _⟩ := ih (p + 1) hasEsc false h
      exact ⟨h1, by simp [quoteLoop, hq, e], ha, by intro hf; cases hf⟩
    | false =>
      simp only [escAfter] at h
      by_cases hx : x = 0x5c
      · simp only [hx, if_true] at h
        obtain ⟨h1, hq, ha, _⟩ := ih (p + 1) true true h
        have ht : h1 = true := ha rfl
        exact ⟨h1, by simp [quoteLoop, hx, hq, e], fun _ => ht, fun _ _ => ht⟩
      · simp only [hx, if_false] at h
        by_cases hx2 : x = 0x22
        · simp [hx2] at h
        · simp only [hx2, if_false] at h
          obtain ⟨h1, hq, ha, hb⟩ := ih (p + 1) hasEsc false h
          refine ⟨h1, by simp [quoteLoop, hx, hx2, hq, e], ha, ?_⟩
          intro _ hm
          simp only [List.mem_cons] at hm
          rcases hm with hm | hm
          · exact absurd hm.symm hx
          · exact hb rfl hm

theorem scanQvalue_invalid (unq : List Nat → Option (List Nat)) (d : Decoder)
    (line e r rest : List Nat) (hline : line = e ++ (0x22 :: (r ++ 0x22 :: rest)))
    (hpos : d.pos = e.length) (hr : escAfter false r = some false) (hesc : 0x5c ∈ r)
    (hunq : unq (0x22 :: r ++ [0x22]) = none) :
    scanQvalue unq d line
      = some (syntaxError { d with pos := e.length + r.length + 2 } invalidQuote, false) := by
  subst hline
  obtain ⟨pos, key, value, lineNum, s, err⟩ := d
  simp only at hpos; subst hpos
  obtain ⟨h1, hq, _, hb⟩ := quoteLoop_closed r rest 0 false false hr
  have ht : h1 = true := hb rfl hesc
  subst ht
  rw [Nat.zero_add] at hq
  have hs : slice (e ++ (0x22 :: (r ++ 0x22 :: rest))) e.length (e.length + (r.length + 2))
      = some (0x22 :: r ++ [0x22]) := by
    have := slice_eq e (0x22 :: r ++ [0x22]) rest e.length (e.length + (r.length + 2)) rfl
      (by simp)
    simpa using this
  simp only [scanQvalue, sliceFrom_next, hq, if_true, hs, hunq]
  simp [Nat.add_assoc]

theorem ScanKeyval_invalidQuote (unq : List Nat → Option (List Nat)) (d : Decoder)
    (pre ws k r rest : List Nat) (herr : d.err = none) (hpos : d.pos = pre.length)
    (hline : d.s.Bytes = pre ++ (ws ++ (k ++ 0x3d :: 0x22 :: (r ++ 0x22 :: rest))))
    (hws : separators ws) (hk : bareToken k)
    (hr : escAfter false r = some false) (hesc : 0x5c ∈ r)
    (hunq : unq (0x22 :: r ++ [0x22]) = none) :
    ScanKeyval unq d
      = some ({ d with key := some k, value := none,
                       pos := pre.length + ws.length + k.length + r.length + 3,
                       err := some (.syntaxErr
                         { Msg := invalidQuote, Line := d.lineNum,
                           Pos := pre.length + ws.length + k.length + r.length + 4 }) },
              false) := by
  rw [ScanKeyval_skip unq d pre ws _ herr hpos hline hws (bareToken_head _ hk),
    scanKey_equal unq _ _ (pre ++ ws) k (0x22 :: (r ++ 0x22 :: rest)) (by simp) (by simp) hk,
    scanEqual_next unq _ _ ((pre ++ ws) ++ k) (r ++ 0x22 :: rest) 0x22 (by simp)
      (by simp [Nat.add_assoc]) (by decide),
    if_pos rfl,
    scanQvalue_invalid unq _ _ (((pre ++ ws) ++ k) ++ [0x3d]) r rest (by simp)
      (by simp [Nat.add_assoc]) hr hesc hunq]
  simp [syntaxError, Nat.add_assoc]
  omega

/-- C14, counterexample: on the line `k="\q"`, whose span `unquoteBytes`
rejects, the error is not reported at column 3, the column of the opening
quote. -/
theorem C14_counterexample :
    ¬ ∃ d1 e, ScanKeyval unquoteBytes (firstRecord [0x6b, 0x3d, 0x22, 0x5c, 0x71, 0x22])
          = some (d1, false)
        ∧ d1.Err = some (.syntaxErr e) ∧ e.Msg = "invalid quoted value"
        ∧ e.Pos = 3 ∧ e.Line = 1 := by
  rintro ⟨d1, e, h, he, -, hp, -⟩
  have hv : ScanKeyval unquoteBytes (firstRecord [0x6b, 0x3d, 0x22, 0x5c, 0x71, 0x22])
      = some ({ firstRecord [0x6b, 0x3d, 0x22, 0x5c, 0x71, 0x22] with
                key := some [0x6b], value := none, pos := 6,
                err := some (.syntaxErr
                  { Msg := "invalid quoted value", Line := 1, Pos := 7 }) }, false) := by
    decide
  rw [hv] at h
  cases h
  simp only [Decoder.Err, Option.some.injEq, Error.syntaxErr.injEq] at he
  subst he
  cases hp

/-- C14, amended: when a quoted value with at least one backslash escape is
closed but `unquoteBytes` rejects its span, `ScanKeyval` returns `false` and
sets a `SyntaxError` with `Msg = "invalid quoted value"`, with `Line` the
current line number and with `Pos` one more than the 1-based column of the
closing quote (the cursor has moved past the closing quote before the error
is recorded); for a line `k="..."` at cursor 0 this is `len(line)+1`. -/
theorem C14_invalid_quoted_value (unq : List Nat → Option (List Nat)) (d : Decoder)
    (pre ws k r rest : List Nat) (herr : d.Err = none) (hpos : d.pos = pre.length)
    (hline : d.s.Bytes = pre ++ ws ++ k ++ 0x3d :: 0x22 :: r ++ 0x22 :: rest)
    (hws : separators ws) (hk : bareToken k)
    (hr : escAfter false r = some false) (hesc : 0x5c ∈ r)
    (hunq : unq (0x22 :: r ++ [0x22]) = none) :
    ∃ d1 e, ScanKeyval unq d = some (d1, false) ∧ d1.Err = some (.syntaxErr e)
      ∧ e.Msg = "invalid quoted value" ∧ e.Line = d.lineNum
      ∧ e.Pos = pre.length + ws.length + k.length + r.length + 4
      ∧ index d.s.Bytes (e.Pos - 2).toNat = some 0x22 := by
  have h := ScanKeyval_invalidQuote unq d pre ws k r rest herr hpos (by simpa using hline)
    hws hk hr hesc hunq
  refine ⟨_, _, h, rfl, rfl, rfl, rfl, ?_⟩
  rw [hline]
  have hi := index_append (pre ++ ws ++ k ++ 0x3d :: 0x22 :: r) 0x22 rest
  have e : (pre ++ ws ++ k ++ 0x3d :: 0x22 :: r).length
      = ((pre.length : Int) + ws.length + k.length + r.length + 4 - 2).toNat := by
    simp; omega
  rw [e] at hi
  exact hi

/-- Witness of C14 on the line `k="\q"`. -/
theorem C14_invalid_quoted_value_witness :
    ∃ d1 e, ScanKeyval unquoteBytes (firstRecord [0x6b, 0x3d, 0x22, 0x5c, 0x71, 0x22])
        = some (d1, false)
      ∧ d1.Err = some (.syntaxErr e)
      ∧ e.Msg = "invalid quoted value" ∧ e.Line = 1 ∧ e.Pos = 7
      ∧ index [0x6b, 0x3d, 0x22, 0x5c, 0x71, 0x22] (e.Pos - 2).toNat = some 0x22 :=
  C14_invalid_quoted_value unquoteBytes (firstRecord [0x6b, 0x3d, 0x22, 0x5c, 0x71, 0x22])
    [] [] [0x6b] [0x5c, 0x71] [] rfl rfl rfl (by decide) (by decide) (by decide)
    (by decide) (by decide)

/-! ## Every outcome of one call -/

theorem span_separators (l : List Nat) :
    ∃ ws rest, l = ws ++ rest ∧ separators ws
      ∧ (rest = [] ∨ ∃ c t, rest = c :: t ∧ 0x20 < c) := by
  induction l with
  | nil => exact ⟨[], [], rfl, by intro c hc; simp at hc, Or.inl rfl⟩
  | cons x xs ih =>
    by_cases hx : 0x20 < x
    · exact ⟨[], x :: xs, rfl, by intro c hc; simp at hc, Or.inr ⟨x, xs, rfl, hx⟩⟩
    · obtain ⟨ws, rest, hl, hws, hrest⟩ := ih
      refine ⟨x :: ws, rest, by simp [hl], ?_, hrest⟩
      intro c hc
      simp only [List.mem_cons] at hc
      rcases hc with hc | hc
      · subst hc; omega
      · exact hws c hc

theorem span_bare (l : List Nat) :
    ∃ k rest, l = k ++ rest ∧ bareBytes k
      ∧ (rest = [] ∨ ∃ c t, rest = c :: t ∧ (c ≤ 0x20 ∨ c = 0x3d ∨ c = 0x22)) := by
  induction l with
  | nil => exact ⟨[], [], rfl, by intro c hc; simp at hc, Or.inl rfl⟩
  | cons x xs ih =>
    by_cases hx : 0x20 < x ∧ x ≠ 0x3d ∧ x ≠ 0x22
    · obtain ⟨k, rest, hl, hk, hrest⟩ := ih
      refine ⟨x :: k, rest, by simp [hl], ?_, hrest⟩
      intro c hc
      simp only [List.mem_cons] at hc
      rcases hc with hc | hc
      · subst hc; exact hx
      · exact hk c hc
    · refine ⟨[], x :: xs, rfl, by intro c hc; simp at hc, Or.inr ⟨x, xs, rfl, ?_⟩⟩
      omega

theorem not_separators_of_token (ws : List Nat) (c : Nat) (t : List Nat) (hc : 0x20 < c) :
    ¬ separators (ws ++ c :: t) := by
  intro h
  have := h c (by simp)
  omega

theorem scanQvalue_total (unq : List Nat → Option (List Nat)) (d : Decoder)
    (line e body : List Nat) (hline : line = e ++ 0x22 :: body) (hpos : d.pos = e.length) :
    ∃ d1 ok, scanQvalue unq d line = some (d1, ok)
      ∧ d1.key = d.key ∧ d.pos < d1.pos ∧ d1.pos ≤ line.length
      ∧ (ok = true → d1.err = d.err)
      ∧ (ok = false → d1.value = d.value ∧ d1.err ≠ none) := by
  subst hline
  have hs := scanQvalue_isSome unq d e body hpos
  cases hr : scanQvalue unq d (e ++ 0x22 :: body) with
  | none => simp [hr] at hs
  | some r =>
    obtain ⟨d1, ok⟩ := r
    refine ⟨d1, ok, rfl, ?_⟩
    obtain ⟨pos, key, value, lineNum, s, err⟩ := d
    simp only at hpos; subst hpos
    simp only [scanQvalue, sliceFrom_next] at hr
    split at hr
    · next i h1 hq =>
      have hb := quoteLoop_bounds body 0 false false i h1 hq
      split at hr
      · split at hr
        · cases hr
        · split at hr
          · cases hr
            refine ⟨rfl, ?_, ?_, (by intro h; cases h), fun _ => ⟨rfl, by simp [syntaxError]⟩⟩
            · simp [syntaxError]
            · simp [syntaxError]; omega
          · cases hr
            refine ⟨rfl, ?_, ?_, fun _ => rfl, by intro h; cases h⟩
            · simp
            · simp; omega
      · split at hr
        · split at hr
          · cases hr
          · cases hr
            refine ⟨rfl, ?_, ?_, fun _ => rfl, by intro h; cases h⟩
            · simp
            · simp; omega
        · cases hr
          refine ⟨rfl, ?_, ?_, fun _ => rfl, by intro h; cases h⟩
          · simp
          · simp; omega
    · cases hr
      refine ⟨rfl, ?_, ?_, (by intro h; cases h), fun _ => ⟨rfl, by simp [syntaxError]⟩⟩
      · simp [syntaxError]
      · simp [syntaxError]

theorem Classified.of_error {unq : List Nat → Option (List Nat)} {d d1 : Decoder}
    {pre l : List Nat} (h : ScanKeyval unq d = some (d1, false)) (hv : d1.value = none)
    (he : d1.err ≠ none) (hp : d1.pos ≤ (pre ++ l).length) (hns : ¬ separators l) :
    Classified unq d pre l :=
  ⟨d1, false, h, hp, (by intro h; cases h),
    fun _ => ⟨hv, fun hs => absurd hs hns, fun hn => absurd hn he⟩⟩

theorem Classified.of_true {unq : List Nat → Option (List Nat)} {d d1 : Decoder}
    {pre l : List Nat} (ws k rest : List Nat) (h : ScanKeyval unq d = some (d1, true))
    (hp : d1.pos ≤ (pre ++ l).length) (hlt : d.pos < d1.pos) (he : d1.err = none)
    (hl : l = ws ++ (k ++ rest)) (hws : separators ws) (hk : bareToken k)
    (hkey : d1.key = some k) (hrest : ∀ c, rest.head? = some c → c ≤ 0x20 ∨ c = 0x3d) :
    Classified unq d pre l :=
  ⟨d1, true, h, hp, fun _ => ⟨hlt, he, ws, k, rest, hl, hws, hk, hkey, hrest⟩,
    by intro h; cases h⟩

theorem ScanKeyval_quoteStart (unq : List Nat → Option (List Nat)) (d : Decoder)
    (pre ws k body : List Nat) (herr : d.err = none) (hpos : d.pos = pre.length)
    (hline : d.s.Bytes = pre ++ (ws ++ (k ++ 0x3d :: 0x22 :: body)))
    (hws : separators ws) (hk : bareToken k) :
    ScanKeyval unq d
      = scanQvalue unq { d with key := some k, value := none,
                                pos := pre.length + ws.length + k.length + 1 }
          (pre ++ (ws ++ (k ++ 0x3d :: 0x22 :: body))) := by
  rw [ScanKeyval_skip unq d pre ws _ herr hpos hline hws (bareToken_head _ hk),
    scanKey_equal unq _ _ (pre ++ ws) k (0x22 :: body) (by simp) (by simp) hk,
    scanEqual_next unq _ _ ((pre ++ ws) ++ k) body 0x22 (by simp)
      (by simp [Nat.add_assoc]) (by decide),
    if_pos rfl]
  simp [Nat.add_assoc]

theorem ScanKeyval_classified (unq : List Nat → Option (List Nat)) (d : Decoder)
    (pre l : List Nat) (herr : d.err = none) (hpos : d.pos = pre.length)
    (hline : d.s.Bytes = pre ++ l) : Classified unq d pre l := by
  obtain ⟨ws, rest1, hl, hws, hrest1⟩ := span_separators l
  subst hl
  rcases hrest1 with rfl | ⟨c, t, rfl, hc⟩
  · -- separators only
    have h := ScanKeyval_end unq d pre ws herr hpos (by simpa using hline) hws
    refine ⟨_, false, h, by simp, (by intro h; cases h), fun _ => ⟨rfl, fun _ => herr, fun _ => ?_⟩⟩
    exact ⟨by simpa using hws, by simp, rfl⟩
  · have hns := not_separators_of_token ws c t hc
    obtain ⟨k, rest2, hk2, hkb, hrest2⟩ := span_bare (c :: t)
    rw [hk2] at hline hns ⊢
    cases k with
    | nil =>
      -- the first byte after the separators is reserved
      simp only [List.nil_append] at hk2 hline hns ⊢
      subst hk2
      rcases hrest2 with h0 | ⟨c2, t2, h2, hc2⟩
      · cases h0
      · simp only [List.cons.injEq] at h2
        obtain ⟨h2a, h2b⟩ := h2
        subst h2a h2b
        rcases hc2 with hc2 | hc2 | hc2
        · omega
        · subst hc2
          exact Classified.of_error
            (ScanKeyval_equalFirst unq d pre ws t herr hpos hline hws) rfl
            (by simp [unexpectedByte]) (by simp [unexpectedByte]) hns
        · subst hc2
          exact Classified.of_error
            (ScanKeyval_keyQuote unq d pre ws [] t herr hpos (by simpa using hline) hws
              (by intro x hx; simp at hx)) rfl
            (by simp [unexpectedByte]) (by simp [unexpectedByte]) hns
    | cons x xs =>
      have hk : bareToken (x :: xs) := ⟨by simp, hkb⟩
      generalize x :: xs = k at hk hkb hk2 hline hns ⊢
      have hklen : 0 < k.length := List.length_pos.mpr hk.1
      rcases hrest2 with h0 | ⟨c2, t2, h2, hc2⟩
      · -- the key ends the line
        subst h0
        exact Classified.of_true ws k []
          (ScanKeyval_flag unq d pre ws k [] herr hpos hline hws hk
            (by intro y hy; simp at hy))
          (by simp; omega) (by simp [hpos]; omega) herr rfl hws hk rfl
          (by intro y hy; simp at hy)
      · subst h2
        rcases hc2 with hc2 | hc2 | hc2
        · -- a separator ends the key
          exact Classified.of_true ws k (c2 :: t2)
            (ScanKeyval_flag unq d pre ws k (c2 :: t2) herr hpos hline hws hk
              (by intro y hy; simp at hy; omega))
            (by simp; omega) (by simp [hpos]; omega) herr rfl hws hk rfl
            (by intro y hy; simp at hy; omega)
        · -- an equal sign ends the key
          subst hc2
          have hhead : ∀ y, (0x3d :: t2).head? = some y → y ≤ 0x20 ∨ y = 0x3d := by
            intro y hy; simp at hy; omega
          cases t2 with
          | nil =>
            exact Classified.of_true ws k [0x3d]
              (ScanKeyval_emptyValue unq d pre ws k [] herr hpos hline hws hk
                (by intro y hy; simp at hy))
              (by simp; omega) (by simp [hpos]; omega) herr rfl hws hk rfl hhead
          | cons c3 t3 =>
            by_cases hc3 : c3 ≤ 0x20
            · exact Classified.of_true ws k (0x3d :: c3 :: t3)
                (ScanKeyval_emptyValue unq d pre ws k (c3 :: t3) herr hpos hline hws hk
                  (by intro y hy; simp at hy; omega))
                (by simp; omega) (by simp [hpos]; omega) herr rfl hws hk rfl hhead
            · by_cases hq : c3 = 0x22
              · -- a quoted value
                subst hq
                have hqs := ScanKeyval_quoteStart unq d pre ws k t3 herr hpos hline hws hk
                obtain ⟨d1, ok, hr, hkey, hlt, hle, htrue, hfalse⟩ := scanQvalue_total unq
                  { d with key := some k, value := none,
                           pos := pre.length + ws.length + k.length + 1 }
                  (pre ++ (ws ++ (k ++ 0x3d :: 0x22 :: t3)))
                  (pre ++ (ws ++ (k ++ [0x3d]))) t3 (by simp) (by simp [Nat.add_assoc])
                rw [hr] at hqs
                cases ok with
                | true =>
                  exact Classified.of_true ws k (0x3d :: 0x22 :: t3) hqs hle
                    (by simp only at hlt; omega)
                    ((htrue rfl).trans herr) rfl hws hk hkey hhead
                | false =>
                  exact Classified.of_error hqs (hfalse rfl).1 (hfalse rfl).2 hle hns
              · -- a bare value
                obtain ⟨v, rest4, hv2, hvb, hrest4⟩ := span_bare (c3 :: t3)
                rw [hv2] at hline hns ⊢
                cases v with
                | nil =>
                  simp only [List.nil_append] at hv2 hline hns ⊢
                  subst hv2
                  rcases hrest4 with h0 | ⟨c4, t4, h4, hc4⟩
                  · cases h0
                  · simp only [List.cons.injEq] at h4
                    obtain ⟨h4a, h4b⟩ := h4
                    subst h4a h4b
                    have hc3e : c3 = 0x3d := by omega
                    subst hc3e
                    exact Classified.of_error
                      (ScanKeyval_valueReserved unq d pre ws k [] t3 0x3d herr hpos
                        (by simpa using hline) hws hk (by intro y hy; simp at hy)
                        (Or.inl rfl)) rfl
                      (by simp [unexpectedByte]) (by simp [unexpectedByte]; omega) hns
                | cons y ys =>
                  have hv : bareToken (y :: ys) := ⟨by simp, hvb⟩
                  generalize y :: ys = v at hv hvb hv2 hline hns ⊢
                  rcases hrest4 with h0 | ⟨c4, t4, h4, hc4⟩
                  · subst h0
                    exact Classified.of_true ws k (0x3d :: (v ++ []))
                      (ScanKeyval_pair unq d pre ws k v [] herr hpos hline hws hk hv
                        (by intro z hz; simp at hz))
                      (by simp; omega) (by simp [hpos]; omega) herr rfl hws hk rfl hhead
                  · subst h4
                    rcases hc4 with hc4 | hc4 | hc4
                    · exact Classified.of_true ws k (0x3d :: (v ++ c4 :: t4))
                        (ScanKeyval_pair unq d pre ws k v (c4 :: t4) herr hpos hline hws hk hv
                          (by intro z hz; simp at hz; omega))
                        (by simp; omega) (by simp [hpos]; omega) herr rfl hws hk rfl hhead
                    · exact Classified.of_error
                        (ScanKeyval_valueReserved unq d pre ws k v t4 c4 herr hpos hline
                          hws hk hvb (Or.inl hc4)) rfl
                        (by simp [unexpectedByte]) (by simp [unexpectedByte]; omega) hns
                    · exact Classified.of_error
                        (ScanKeyval_valueReserved unq d pre ws k v t4 c4 herr hpos hline
                          hws hk hvb (Or.inr ⟨hc4, hv.1⟩)) rfl
                        (by simp [unexpectedByte]) (by simp [unexpectedByte]; omega) hns
        · -- a double quote in the key
          subst hc2
          exact Classified.of_error
            (ScanKeyval_keyQuote unq d pre ws k t2 herr hpos hline hws hkb) rfl
            (by simp [unexpectedByte]) (by simp [unexpectedByte]; omega) hns

/-! ## One call at any cursor inside the line -/

theorem ScanKeyval_classified_at (unq : List Nat → Option (List Nat)) (d : Decoder)
    (herr : d.err = none) (hpos : d.pos ≤ d.s.Bytes.length) :
    Classified unq d (d.s.Bytes.take d.pos) (d.s.Bytes.drop d.pos) :=
  ScanKeyval_classified unq d _ _ herr (by simp [List.length_take, hpos]) (by simp)

theorem ScanKeyval_panics (unq : List Nat → Option (List Nat)) (d : Decoder)
    (herr : d.err = none) (hpos : d.s.Bytes.length < d.pos) : ScanKeyval unq d = none := by
  simp [ScanKeyval, herr, sliceFrom, Nat.not_le.mpr hpos]

theorem ScanKeyval_some_pos (unq : List Nat → Option (List Nat)) (d : Decoder)
    (r : Decoder × Bool) (herr : d.err = none) (h : ScanKeyval unq d = some r) :
    d.pos ≤ d.s.Bytes.length := by
  by_contra hlt
  rw [ScanKeyval_panics unq d herr (Nat.not_le.mp hlt)] at h
  cases h

theorem ScanKeyval_true_err (unq : List Nat → Option (List Nat)) (d d1 : Decoder)
    (h : ScanKeyval unq d = some (d1, true)) : d.err = none := by
  cases he : d.err with
  | none => rfl
  | some e =>
    rw [ScanKeyval_failed unq d e he] at h
    cases h

theorem not_separators_of_bareToken (ws k rest : List Nat) (hk : bareToken k) :
    ¬ separators (ws ++ (k ++ rest)) := by
  obtain ⟨c, hc, hc2⟩ := bareToken_head rest hk
  cases hkr : k ++ rest with
  | nil => simp [hkr] at hc
  | cons x t =>
    simp [hkr] at hc
    subst hc
    exact not_separators_of_token ws x t hc2

/-- C18: bounds safety.  With the cursor inside the line (`0 <= cursor <=
len(line)`), every index and slice expression that `ScanKeyval` executes is
within the bounds of the line: the call returns and does not panic. -/
theorem C18_bounds_safety (unq : List Nat → Option (List Nat)) (d : Decoder)
    (hpos : d.pos ≤ d.s.Bytes.length) :
    ∃ d1 ok, ScanKeyval unq d = some (d1, ok) := by
  cases he : d.err with
  | some e => exact ⟨_, _, ScanKeyval_failed unq d e he⟩
  | none =>
    obtain ⟨d1, ok, h, -⟩ := ScanKeyval_classified_at unq d he hpos
    exact ⟨d1, ok, h⟩

/-- Witness of C18: the line `k=` with the cursor at the end of the line. -/
theorem C18_bounds_safety_witness :
    ∃ d1 ok, ScanKeyval unquoteBytes { firstRecord [0x6b, 0x3d] with pos := 2 }
      = some (d1, ok) :=
  C18_bounds_safety unquoteBytes { firstRecord [0x6b, 0x3d] with pos := 2 } (by decide)

theorem scanLoop_terminates (unq : List Nat → Option (List Nat)) (fuel : Nat) :
    ∀ d : Decoder, d.pos ≤ d.s.Bytes.length → d.s.Bytes.length - d.pos < fuel →
      ∃ d1 n, scanLoop unq fuel d = some (d1, n) ∧ n ≤ d.s.Bytes.length - d.pos := by
  induction fuel with
  | zero => intro d _ h; omega
  | succ fuel ih =>
    intro d hpos hfuel
    cases he : d.err with
    | some e =>
      exact ⟨{ d with key := none, value := none }, 0,
        by simp [scanLoop, ScanKeyval_failed unq d e he], Nat.zero_le _⟩
    | none =>
      obtain ⟨d1, ok, h, hle, htrue, -⟩ := ScanKeyval_classified_at unq d he hpos
      simp only [List.take_append_drop] at hle
      cases ok with
      | false => exact ⟨d1, 0, by simp [scanLoop, h], Nat.zero_le _⟩
      | true =>
        obtain ⟨hlt, -, -⟩ := htrue rfl
        have hs := (ScanKeyval_lineNum h).2
        obtain ⟨d2, n, hn, hle2⟩ := ih d1 (by rw [hs]; exact hle) (by rw [hs]; omega)
        rw [hs] at hle2
        exact ⟨d2, n + 1, by simp [scanLoop, h, hn], by omega⟩

/-- C16: progress and termination.  With the cursor inside the line and no error
set, `ScanKeyval` returns, and when it returns `true` the cursor is strictly
greater than before and still inside the line; so the loop
`for dec.ScanKeyval() {}` over one record ends after at most `len(line)` calls
that return `true`. -/
theorem C16_progress_and_termination (unq : List Nat → Option (List Nat)) (d : Decoder)
    (herr : d.Err = none) (hpos : d.pos ≤ d.s.Bytes.length) :
    (∃ d1 ok, ScanKeyval unq d = some (d1, ok)
        ∧ (ok = true → d.pos < d1.pos ∧ d1.pos ≤ d.s.Bytes.length))
      ∧ ∀ fuel, d.s.Bytes.length < fuel →
          ∃ d1 n, scanLoop unq fuel d = some (d1, n) ∧ n ≤ d.s.Bytes.length := by
  constructor
  · obtain ⟨d1, ok, h, hle, htrue, -⟩ := ScanKeyval_classified_at unq d herr hpos
    simp only [List.take_append_drop] at hle
    exact ⟨d1, ok, h, fun hok => ⟨(htrue hok).1, hle⟩⟩
  · intro fuel hfuel
    obtain ⟨d1, n, h, hn⟩ := scanLoop_terminates unq fuel d hpos (by omega)
    exact ⟨d1, n, h, by omega⟩

/-- Witness of C16 on the line `a=1 b`. -/
theorem C16_progress_and_termination_witness :
    (∃ d1 ok, ScanKeyval unquoteBytes (firstRecord [0x61, 0x3d, 0x31, 0x20, 0x62])
          = some (d1, ok)
        ∧ (ok = true → (firstRecord [0x61, 0x3d, 0x31, 0x20, 0x62]).pos < d1.pos
            ∧ d1.pos ≤ (firstRecord [0x61, 0x3d, 0x31, 0x20, 0x62]).s.Bytes.length))
      ∧ ∃ d1 n, scanLoop unquoteBytes 6 (firstRecord [0x61, 0x3d, 0x31, 0x20, 0x62])
          = some (d1, n)
        ∧ n ≤ (firstRecord [0x61, 0x3d, 0x31, 0x20, 0x62]).s.Bytes.length :=
  let h := C16_progress_and_termination unquoteBytes
    (firstRecord [0x61, 0x3d, 0x31, 0x20, 0x62]) rfl (by decide)
  ⟨h.1, h.2 6 (by decide)⟩

/-- C17: whenever `ScanKeyval` returns `true`, `Key()` is present and is a
non-empty run of bytes above the space other than the equal sign and the double
quote; it is the run of line bytes that starts at the first non-separator byte
at or after the old cursor and ends before an equal sign, a separator or the
end of the line. -/
theorem C17_key_of_successful_scan (unq : List Nat → Option (List Nat)) (d d1 : Decoder)
    (h : ScanKeyval unq d = some (d1, true)) :
    ∃ ws k rest, d.s.Bytes.drop d.pos = ws ++ k ++ rest ∧ separators ws
      ∧ d1.Key = some k ∧ k ≠ [] ∧ (∀ c ∈ k, 0x20 < c ∧ c ≠ 0x3d ∧ c ≠ 0x22)
      ∧ ∀ c, rest.head? = some c → c ≤ 0x20 ∨ c = 0x3d := by
  have herr := ScanKeyval_true_err unq d d1 h
  have hpos := ScanKeyval_some_pos unq d _ herr h
  obtain ⟨d2, ok, h2, -, htrue, -⟩ := ScanKeyval_classified_at unq d herr hpos
  rw [h] at h2
  simp only [Option.some.injEq, Prod.mk.injEq] at h2
  obtain ⟨h2a, h2b⟩ := h2
  subst h2a h2b
  obtain ⟨-, -, ws, k, rest, hl, hws, hk, hkey, hrest⟩ := htrue rfl
  exact ⟨ws, k, rest, by simpa using hl, hws, hkey, hk.1, hk.2, hrest⟩

/-- Witness of C17 on the line ` ab=1` (a leading space, then the key `ab`). -/
theorem C17_key_of_successful_scan_witness :
    ∃ ws k rest, (firstRecord [0x20, 0x61, 0x62, 0x3d, 0x31]).s.Bytes.drop
          (firstRecord [0x20, 0x61, 0x62, 0x3d, 0x31]).pos = ws ++ k ++ rest
      ∧ separators ws
      ∧ ({ firstRecord [0x20, 0x61, 0x62, 0x3d, 0x31] with
            key := some [0x61, 0x62], value := some [0x31], pos := 5 } : Decoder).Key = some k
      ∧ k ≠ [] ∧ (∀ c ∈ k, 0x20 < c ∧ c ≠ 0x3d ∧ c ≠ 0x22)
      ∧ ∀ c, rest.head? = some c → c ≤ 0x20 ∨ c = 0x3d :=
  C17_key_of_successful_scan unquoteBytes (firstRecord [0x20, 0x61, 0x62, 0x3d, 0x31])
    { firstRecord [0x20, 0x61, 0x62, 0x3d, 0x31] with
      key := some [0x61, 0x62], value := some [0x31], pos := 5 } (by decide)

theorem ScanKeyval_false_at (unq : List Nat → Option (List Nat)) (d d1 : Decoder)
    (herr : d.err = none) (h : ScanKeyval unq d = some (d1, false)) :
    d1.value = none ∧ (separators (d.s.Bytes.drop d.pos) → d1.err = none)
      ∧ (d1.err = none → separators (d.s.Bytes.drop d.pos) ∧ d1.pos = d.s.Bytes.length
          ∧ d1.key = none) := by
  have hpos := ScanKeyval_some_pos unq d _ herr h
  obtain ⟨d2, ok, h2, -, -, hfalse⟩ := ScanKeyval_classified_at unq d herr hpos
  rw [h] at h2
  simp only [Option.some.injEq, Prod.mk.injEq] at h2
  obtain ⟨h2a, h2b⟩ := h2
  subst h2a h2b
  simpa using hfalse rfl

/-- With the cursor inside the line, `ScanKeyval` returns `false` with no error
set afterwards if and only if no error was set before the call and every byte
of the line from the cursor to its end is a separator; the cursor is then at
`len(line)`, and a `false` with an error set afterwards is a failure. -/
theorem ScanKeyval_clean_end_iff (unq : List Nat → Option (List Nat)) (d : Decoder)
    (hpos : d.pos ≤ d.s.Bytes.length) :
    ((∃ d1, ScanKeyval unq d = some (d1, false) ∧ d1.Err = none)
        ↔ (d.Err = none ∧ separators (d.s.Bytes.drop d.pos)))
      ∧ (∀ d1, ScanKeyval unq d = some (d1, false) → d1.Err = none →
          d1.pos = d.s.Bytes.length)
      ∧ (∀ d1, ScanKeyval unq d = some (d1, false) → d1.Err ≠ none →
          d.Err ≠ none ∨ ¬ separators (d.s.Bytes.drop d.pos)) := by
  have hprev : ∀ d1, ScanKeyval unq d = some (d1, false) → d1.Err = none → d.err = none := by
    intro d1 h h1
    cases he : d.err with
    | none => rfl
    | some e =>
      rw [ScanKeyval_failed unq d e he] at h
      cases h
      simp [Decoder.Err, he] at h1
  refine ⟨⟨?_, ?_⟩, ?_, ?_⟩
  · rintro ⟨d1, h, h1⟩
    have herr := hprev d1 h h1
    exact ⟨herr, ((ScanKeyval_false_at unq d d1 herr h).2.2 h1).1⟩
  · rintro ⟨herr, hsep⟩
    obtain ⟨d1, ok, h, -, htrue, hfalse⟩ := ScanKeyval_classified_at unq d herr hpos
    cases ok with
    | true =>
      obtain ⟨-, -, ws, k, rest, hl, -, hk, -, -⟩ := htrue rfl
      rw [hl] at hsep
      exact absurd hsep (not_separators_of_bareToken ws k rest hk)
    | false => exact ⟨d1, h, (hfalse rfl).2.1 hsep⟩
  · intro d1 h h1
    exact ((ScanKeyval_false_at unq d d1 (hprev d1 h h1) h).2.2 h1).2.1
  · intro d1 h h1
    by_cases herr : d.Err = none
    · exact Or.inr fun hsep => h1 ((ScanKeyval_false_at unq d d1 herr h).2.1 hsep)
    · exact Or.inl herr

/-- C12, the code at the failing input: a new decoder over the single line `a`,
after `ScanRecord`, `ScanKeyval` and the `ScanRecord` that reports the end of
the input, has no error set and no byte left from the cursor to the end of the
(empty) current line, so `ScanKeyval` should return `false` with no error; the
call panics instead on `line[dec.pos:]`, the cursor being 1, and the
equivalence of the claim is false in that state.  For every cursor inside the
line the equivalence holds: `false` with no error afterwards exactly when no
error was set before and only separators are left, the cursor then being moved
to `len(line)`, and `false` with an error set afterwards is a failure. -/
theorem C12_clean_end_and_cursor_past_line :
    (∃ d, run unquoteBytes (NewDecoder [[0x61]] none) [.record, .keyval, .record]
          = some (d, [true, true, false])
        ∧ d.Err = none ∧ separators (d.s.Bytes.drop d.pos)
        ∧ ScanKeyval unquoteBytes d = none
        ∧ ¬ ((∃ d1, ScanKeyval unquoteBytes d = some (d1, false) ∧ d1.Err = none)
              ↔ (d.Err = none ∧ separators (d.s.Bytes.drop d.pos))))
      ∧ ∀ (unq : List Nat → Option (List Nat)) (d : Decoder), d.pos ≤ d.s.Bytes.length →
          ((∃ d1, ScanKeyval unq d = some (d1, false) ∧ d1.Err = none)
              ↔ (d.Err = none ∧ separators (d.s.Bytes.drop d.pos)))
            ∧ (∀ d1, ScanKeyval unq d = some (d1, false) → d1.Err = none →
                d1.pos = d.s.Bytes.length)
            ∧ (∀ d1, ScanKeyval unq d = some (d1, false) → d1.Err ≠ none →
                d.Err ≠ none ∨ ¬ separators (d.s.Bytes.drop d.pos)) := by
  refine ⟨⟨{ pos := 1, key := some [0x61], value := none, lineNum := 1,
             s := { pending := [], failure := none, token := [], err := none },
             err := none }, by decide, rfl, by decide, by decide, ?_⟩,
    fun unq d hpos => ScanKeyval_clean_end_iff unq d hpos⟩
  intro h
  obtain ⟨d1, h1, -⟩ := h.2 ⟨rfl, by decide⟩
  have hn : ScanKeyval unquoteBytes
      { pos := 1, key := some [0x61], value := none, lineNum := 1,
        s := { pending := [], failure := none, token := [], err := none },
        err := none } = none := by decide
  rw [hn] at h1
  cases h1

/-- C11, counterexample: on the line `k=a=b` the call returns `false`, yet
`Key()` is not nil. -/
theorem C11_counterexample :
    ¬ ∀ d1, ScanKeyval unquoteBytes (firstRecord [0x6b, 0x3d, 0x61, 0x3d, 0x62])
          = some (d1, false) → d1.Key = none ∧ d1.Value = none := by
  intro h
  have hk := (h { firstRecord [0x6b, 0x3d, 0x61, 0x3d, 0x62] with
                  key := some [0x6b], value := none, pos := 3,
                  err := some (.syntaxErr { Msg := "unexpected '='", Line := 1, Pos := 4 }) }
    (by decide)).1
  cases hk

/-- C11, amended: whenever `ScanKeyval` returns `false`, `Value()` is nil
afterwards; `Key()` is nil as well at a clean end of record, when an error was
already set, and when the syntax error is raised while the key is scanned (a
double quote in the key, an equal sign before any key byte); when the syntax
error is raised after the key (a reserved byte in a bare value, an unterminated
or an invalid quoted value) `Key()` still holds the key scanned by the call. -/
theorem C11_value_nil_after_false (unq : List Nat → Option (List Nat)) :
    (∀ d d1, ScanKeyval unq d = some (d1, false) →
        d1.Value = none ∧ (d.Err ≠ none ∨ d1.Err = none → d1.Key = none))
      ∧ (∀ (d : Decoder) (pre ws t rest : List Nat) (c : Nat),
          d.Err = none → d.pos = pre.length → d.s.Bytes = pre ++ ws ++ t ++ c :: rest →
          separators ws → (bareBytes t ∧ c = 0x22) ∨ (t = [] ∧ c = 0x3d) →
          ∃ d1, ScanKeyval unq d = some (d1, false) ∧ d1.Err ≠ none
            ∧ d1.Key = none ∧ d1.Value = none)
      ∧ (∀ (d : Decoder) (pre ws k tail : List Nat),
          d.Err = none → d.pos = pre.length → d.s.Bytes = pre ++ ws ++ k ++ 0x3d :: tail →
          separators ws → bareToken k →
          (∃ v c rest, tail = v ++ c :: rest ∧ bareBytes v
              ∧ (c = 0x3d ∨ (c = 0x22 ∧ v ≠ [])))
            ∨ (∃ r, tail = 0x22 :: r ∧ noUnescapedQuote r)
            ∨ (∃ r rest, tail = 0x22 :: r ++ 0x22 :: rest ∧ escAfter false r = some false
                ∧ 0x5c ∈ r ∧ unq (0x22 :: r ++ [0x22]) = none) →
          ∃ d1, ScanKeyval unq d = some (d1, false) ∧ d1.Err ≠ none
            ∧ d1.Key = some k ∧ d1.Value = none) := by
  refine ⟨?_, ?_, ?_⟩
  · intro d d1 h
    cases he : d.err with
    | some e =>
      rw [ScanKeyval_failed unq d e he] at h
      cases h
      exact ⟨rfl, fun _ => rfl⟩
    | none =>
      obtain ⟨hv, -, hk⟩ := ScanKeyval_false_at unq d d1 he h
      refine ⟨hv, ?_⟩
      rintro (h1 | h1)
      · exact absurd he h1
      · exact (hk h1).2.2
  · intro d pre ws t rest c herr hpos hline hws hcase
    rcases hcase with ⟨ht, hc⟩ | ⟨ht, hc⟩
    · subst hc
      exact ⟨_, ScanKeyval_keyQuote unq d pre ws t rest herr hpos (by simpa using hline)
        hws ht, by simp [unexpectedByte, Decoder.Err], rfl, rfl⟩
    · subst hc ht
      exact ⟨_, ScanKeyval_equalFirst unq d pre ws rest herr hpos (by simpa using hline)
        hws, by simp [unexpectedByte, Decoder.Err], rfl, rfl⟩
  · intro d pre ws k tail herr hpos hline hws hk hcase
    rcases hcase with ⟨v, c, rest, ht, hv, hc⟩ | ⟨r, ht, hr⟩ | ⟨r, rest, ht, hr, hesc, hunq⟩
    · subst ht
      exact ⟨_, ScanKeyval_valueReserved unq d pre ws k v rest c herr hpos
        (by simpa using hline) hws hk hv hc, by simp [unexpectedByte, Decoder.Err], rfl, rfl⟩
    · subst ht
      exact ⟨_, ScanKeyval_unterminated unq d pre ws k r herr hpos (by simpa using hline)
        hws hk hr, by simp [Decoder.Err], rfl, rfl⟩
    · subst ht
      exact ⟨_, ScanKeyval_invalidQuote unq d pre ws k r rest herr hpos
        (by simpa using hline) hws hk hr hesc hunq, by simp [Decoder.Err], rfl, rfl⟩

/-- Witness of C11 on the lines `k=a=b` and `k="abc`, where the key is kept, and
on the line `k"=v`, where it is nil. -/
theorem C11_value_nil_after_false_witness :
    (∃ d1, ScanKeyval unquoteBytes (firstRecord [0x6b, 0x3d, 0x61, 0x3d, 0x62])
          = some (d1, false)
        ∧ d1.Err ≠ none ∧ d1.Key = some [0x6b] ∧ d1.Value = none)
      ∧ (∃ d1, ScanKeyval unquoteBytes (firstRecord [0x6b, 0x3d, 0x22, 0x61, 0x62, 0x63])
          = some (d1, false)
        ∧ d1.Err ≠ none ∧ d1.Key = some [0x6b] ∧ d1.Value = none)
      ∧ ∃ d1, ScanKeyval unquoteBytes (firstRecord [0x6b, 0x22, 0x3d, 0x76])
          = some (d1, false)
        ∧ d1.Err ≠ none ∧ d1.Key = none ∧ d1.Value = none :=
  let h := C11_value_nil_after_false unquoteBytes
  ⟨h.2.2 (firstRecord [0x6b, 0x3d, 0x61, 0x3d, 0x62]) [] [] [0x6b] [0x61, 0x3d, 0x62]
      rfl rfl rfl (by decide) (by decide)
      (Or.inl ⟨[0x61], 0x3d, [0x62], rfl, by decide, Or.inl rfl⟩),
    h.2.2 (firstRecord [0x6b, 0x3d, 0x22, 0x61, 0x62, 0x63]) [] [] [0x6b]
      [0x22, 0x61, 0x62, 0x63] rfl rfl rfl (by decide) (by decide)
      (Or.inr (Or.inl ⟨[0x61, 0x62, 0x63], rfl, by decide⟩)),
    h.2.1 (firstRecord [0x6b, 0x22, 0x3d, 0x76]) [] [] [0x6b] [0x3d, 0x76] 0x22
      rfl rfl rfl (by decide) (Or.inl ⟨by decide, rfl⟩)⟩

/-! ## The same scan on a line and on its unread part -/

theorem sliceFrom_shift (pre l : List Nat) (a : Nat) :
    sliceFrom (pre ++ l) (a + pre.length) = sliceFrom l a := by
  simp only [sliceFrom, List.length_append]
  by_cases h : a ≤ l.length
  · have h2 : a + pre.length ≤ pre.length + l.length := by omega
    rw [if_pos h, if_pos h2, Nat.add_comm a, List.drop_append]
  · have h2 : ¬ a + pre.length ≤ pre.length + l.length := by omega
    rw [if_neg h, if_neg h2]

theorem slice_shift (pre l : List Nat) (a b : Nat) :
    slice (pre ++ l) (a + pre.length) (b + pre.length) = slice l a b := by
  simp only [slice, List.length_append]
  by_cases h : a ≤ b ∧ b ≤ l.length
  · have h2 : a + pre.length ≤ b + pre.length ∧ b + pre.length ≤ pre.length + l.length := by
      omega
    rw [if_pos h, if_pos h2, Nat.add_comm b, List.take_append, Nat.add_comm a,
      List.drop_append]
  · have h2 : ¬ (a + pre.length ≤ b + pre.length ∧ b + pre.length ≤ pre.length + l.length) := by
      omega
    rw [if_neg h, if_neg h2]

theorem index_shift (pre l : List Nat) (a : Nat) :
    index (pre ++ l) (a + pre.length) = index l a := by
  induction pre with
  | nil => simp
  | cons x xs ih => simpa [index, ← Nat.add_assoc] using ih

theorem syntaxError_shift (n : Nat) (sc : Scanner) (d : Decoder) (msg : String) :
    syntaxError (shift n sc d) msg = shift n sc (syntaxError d msg) := by
  simp [syntaxError, shift, shiftErr]
  omega

theorem unexpectedByte_shift (n : Nat) (sc : Scanner) (d : Decoder) (c : Nat) :
    unexpectedByte (shift n sc d) c = shift n sc (unexpectedByte d c) := by
  simp [unexpectedByte, shift, shiftErr]
  omega

theorem setKey_shift (pre l : List Nat) (sc : Scanner) (d : Decoder) (start : Nat) :
    setKey (shift pre.length sc d) (pre ++ l) (start + pre.length)
      = (setKey d l start).map (shift pre.length sc) := by
  simp only [setKey, shift, slice_shift, gt_iff_lt, Nat.add_lt_add_iff_right]
  split
  · cases slice l start d.pos <;> simp [shift]
  · simp [shift]

theorem setValue_shift (pre l : List Nat) (sc : Scanner) (d : Decoder) (start : Nat) :
    setValue (shift pre.length sc d) (pre ++ l) (start + pre.length)
      = (setValue d l start).map (shift pre.length sc) := by
  simp only [setValue, shift, slice_shift, gt_iff_lt, Nat.add_lt_add_iff_right]
  split
  · cases slice l start d.pos <;> simp [shift]
  · simp [shift]

theorem scanValue_shift (pre l : List Nat) (sc : Scanner) (d : Decoder) :
    scanValue (shift pre.length sc d) (pre ++ l)
      = (scanValue d l).map fun r => (shift pre.length sc r.1, r.2) := by
  have hp : (shift pre.length sc d).pos = d.pos + pre.length := rfl
  simp only [scanValue, hp, sliceFrom_shift]
  cases sliceFrom l d.pos with
  | none => simp
  | some rest =>
    simp only
    cases valueLoop rest 0 with
    | unexpected p c =>
      have e : ({ shift pre.length sc d with pos := d.pos + pre.length + p } : Decoder)
          = shift pre.length sc { d with pos := d.pos + p } := by
        simp [shift, Nat.add_right_comm]
      simp [e, unexpectedByte_shift]
    | space p =>
      have e : ({ shift pre.length sc d with pos := d.pos + pre.length + p } : Decoder)
          = shift pre.length sc { d with pos := d.pos + p } := by
        simp [shift, Nat.add_right_comm]
      simp only [e, setValue_shift]
      cases setValue { d with pos := d.pos + p } l d.pos <;> simp
    | eol =>
      have e : ({ shift pre.length sc d with pos := (pre ++ l).length } : Decoder)
          = shift pre.length sc { d with pos := l.length } := by
        simp [shift, Nat.add_comm]
      simp only [e, setValue_shift]
      cases setValue { d with pos := l.length } l d.pos <;> simp

theorem sliceFrom_shift_eq (pre l : List Nat) (a b : Nat) (h : b = a + pre.length) :
    sliceFrom (pre ++ l) b = sliceFrom l a := by
  subst h; exact sliceFrom_shift pre l a

theorem slice_shift_eq (pre l : List Nat) (a b a2 b2 : Nat) (ha : a2 = a + pre.length)
    (hb : b2 = b + pre.length) : slice (pre ++ l) a2 b2 = slice l a b := by
  subst ha hb; exact slice_shift pre l a b

theorem index_shift_eq (pre l : List Nat) (a b : Nat) (h : b = a + pre.length) :
    index (pre ++ l) b = index l a := by
  subst h; exact index_shift pre l a

theorem scanQvalue_shift (unq : List Nat → Option (List Nat)) (pre l : List Nat)
    (sc : Scanner) (d : Decoder) :
    scanQvalue unq (shift pre.length sc d) (pre ++ l)
      = (scanQvalue unq d l).map fun r => (shift pre.length sc r.1, r.2) := by
  obtain ⟨pos, key, value, lineNum, s, err⟩ := d
  simp only [scanQvalue, shift]
  rw [sliceFrom_shift_eq pre l (pos + 1) _ (by omega)]
  cases sliceFrom l (pos + 1) with
  | none => rfl
  | some rest =>
    simp only
    cases quoteLoop rest 0 false false with
    | none =>
      simp [syntaxError, shiftErr]
      omega
    | some r =>
      obtain ⟨p, hasEsc⟩ := r
      cases hasEsc with
      | true =>
        simp only [if_true]
        rw [slice_shift_eq pre l pos (pos + (p + 2)) _ _ rfl (by omega)]
        cases slice l pos (pos + (p + 2)) with
        | none => rfl
        | some span =>
          simp only
          cases unq span with
          | none =>
            simp [syntaxError, shiftErr]
            omega
          | some v =>
            simp
            omega
      | false =>
        simp only [Bool.false_eq_true, if_false]
        rw [slice_shift_eq pre l (pos + 1) (pos + (p + 2) - 1) _ _ (by omega) (by omega)]
        by_cases hp : pos + (p + 2) - 1 > pos + 1
        · have hp2 : pos + pre.length + (p + 2) - 1 > pos + pre.length + 1 := by omega
          simp only [hp, hp2, if_true]
          cases slice l (pos + 1) (pos + (p + 2) - 1) with
          | none => rfl
          | some v =>
            simp
            omega
        · have hp2 : ¬ pos + pre.length + (p + 2) - 1 > pos + pre.length + 1 := by omega
          simp only [hp, hp2, if_false]
          simp
          omega

theorem scanEqual_shift (unq : List Nat → Option (List Nat)) (pre l : List Nat)
    (sc : Scanner) (d : Decoder) :
    scanEqual unq (shift pre.length sc d) (pre ++ l)
      = (scanEqual unq d l).map fun r => (shift pre.length sc r.1, r.2) := by
  have hq := scanQvalue_shift unq pre l sc { d with pos := d.pos + 1 }
  have hv := scanValue_shift pre l sc { d with pos := d.pos + 1 }
  obtain ⟨pos, key, value, lineNum, s, err⟩ := d
  simp only [shift] at hq hv
  simp only [scanEqual, shift, List.length_append]
  rw [index_shift_eq pre l (pos + 1) _ (by omega)]
  have e : pos + pre.length + 1 = pos + 1 + pre.length := by omega
  by_cases hlen : pos + 1 ≥ l.length
  · have hlen2 : pos + pre.length + 1 ≥ pre.length + l.length := by omega
    simp only [hlen, hlen2, if_true]
    simp
    omega
  · have hlen2 : ¬ pos + pre.length + 1 ≥ pre.length + l.length := by omega
    simp only [hlen, hlen2, if_false]
    cases index l (pos + 1) with
    | none => rfl
    | some c =>
      simp only
      by_cases hc : c ≤ 0x20
      · simp only [hc, if_true]
        simp
        omega
      · simp only [hc, if_false]
        by_cases hc2 : c = 0x22
        · simp only [hc2, if_true]
          rw [e]
          exact hq
        · simp only [hc2, if_false]
          rw [e]
          exact hv

theorem scanKey_shift (unq : List Nat → Option (List Nat)) (pre l : List Nat)
    (sc : Scanner) (d : Decoder) :
    scanKey unq (shift pre.length sc d) (pre ++ l)
      = (scanKey unq d l).map fun r => (shift pre.length sc r.1, r.2) := by
  have hk : ∀ q, setKey (shift pre.length sc { d with pos := q }) (pre ++ l)
      (d.pos + pre.length)
      = (setKey { d with pos := q } l d.pos).map (shift pre.length sc) :=
    fun q => setKey_shift pre l sc { d with pos := q } d.pos
  obtain ⟨pos, key, value, lineNum, s, err⟩ := d
  simp only [shift] at hk
  simp only [scanKey, shift]
  rw [sliceFrom_shift_eq pre l pos _ rfl]
  cases sliceFrom l pos with
  | none => rfl
  | some rest =>
    simp only
    cases keyLoop rest 0 with
    | equal p =>
      have e : pos + pre.length + p = pos + p + pre.length := by omega
      simp only [e, hk]
      cases setKey { pos := pos + p, key := key, value := value, lineNum := lineNum,
                     s := s, err := err } l pos with
      | none => rfl
      | some d2 =>
        have hkey2 : (shift pre.length sc d2).key = d2.key := rfl
        simp only [Option.map_some', hkey2]
        by_cases hkey : d2.key = none
        · simp only [hkey, if_true]
          simp [unexpectedByte, shiftErr, shift]
          omega
        · simp only [hkey, if_false]
          exact scanEqual_shift unq pre l sc d2
    | quote p =>
      simp [unexpectedByte, shiftErr]
      omega
    | space p =>
      have e : pos + pre.length + p = pos + p + pre.length := by omega
      simp only [e, hk]
      cases setKey { pos := pos + p, key := key, value := value, lineNum := lineNum,
                     s := s, err := err } l pos <;> rfl
    | eol =>
      have e : (pre ++ l).length = l.length + pre.length := by simp; omega
      simp only [e, hk]
      cases setKey { pos := l.length, key := key, value := value, lineNum := lineNum,
                     s := s, err := err } l pos <;> rfl

theorem ScanKeyval_shift (unq : List Nat → Option (List Nat)) (pre : List Nat)
    (sc : Scanner) (d : Decoder) (hsc : sc.Bytes = pre ++ d.s.Bytes) :
    ScanKeyval unq (shift pre.length sc d)
      = (ScanKeyval unq d).map fun r => (shift pre.length sc r.1, r.2) := by
  have hk : ∀ q, scanKey unq
      (shift pre.length sc { d with key := none, value := none, pos := q }) (pre ++ d.s.Bytes)
      = (scanKey unq { d with key := none, value := none, pos := q } d.s.Bytes).map
          fun r => (shift pre.length sc r.1, r.2) :=
    fun q => scanKey_shift unq pre d.s.Bytes sc _
  obtain ⟨pos, key, value, lineNum, s, err⟩ := d
  simp only [shift] at hk
  simp only at hsc
  simp only [ScanKeyval, shift, hsc]
  cases err with
  | some x => simp
  | none =>
    simp only [Option.map_none', ne_eq, not_true_eq_false, if_false]
    rw [sliceFrom_shift_eq pre s.Bytes pos _ rfl]
    cases sliceFrom s.Bytes pos with
    | none => rfl
    | some rest =>
      simp only
      cases garbageLoop rest 0 with
      | none =>
        simp
        omega
      | some p =>
        have e : pos + pre.length + p = pos + p + pre.length := by omega
        simp only [e]
        exact hk (pos + p)

theorem setKey_err {d d1 : Decoder} {line : List Nat} {start : Nat}
    (h : setKey d line start = some d1) : d1.err = d.err := by
  unfold setKey at h
  split at h
  · split at h
    · cases h
    · cases h; rfl
  · cases h; rfl

theorem setValue_err {d d1 : Decoder} {line : List Nat} {start : Nat}
    (h : setValue d line start = some d1) : d1.err = d.err := by
  unfold setValue at h
  split at h
  · split at h
    · cases h
    · cases h; rfl
  · cases h; rfl

theorem scanValue_err {d d1 : Decoder} {line : List Nat} {ok : Bool}
    (h : scanValue d line = some (d1, ok)) :
    d1.err = d.err ∨ ∃ e, d1.err = some (.syntaxErr e) := by
  unfold scanValue at h
  simp only at h
  split at h
  · cases h
  · split at h
    · cases h; exact Or.inr ⟨_, rfl⟩
    · split at h
      · cases h
      · next hs => cases h; have hf := setValue_err hs; exact Or.inl hf
    · split at h
      · cases h
      · next hs => cases h; have hf := setValue_err hs; exact Or.inl hf

theorem scanQvalue_err {unq : List Nat → Option (List Nat)} {d d1 : Decoder}
    {line : List Nat} {ok : Bool} (h : scanQvalue unq d line = some (d1, ok)) :
    d1.err = d.err ∨ ∃ e, d1.err = some (.syntaxErr e) := by
  unfold scanQvalue at h
  simp only at h
  split at h
  · cases h
  · split at h
    · split at h
      · split at h
        · cases h
        · split at h
          · cases h; exact Or.inr ⟨_, rfl⟩
          · cases h; exact Or.inl rfl
      · split at h
        · split at h
          · cases h
          · cases h; exact Or.inl rfl
        · cases h; exact Or.inl rfl
    · cases h; exact Or.inr ⟨_, rfl⟩

theorem scanEqual_err {unq : List Nat → Option (List Nat)} {d d1 : Decoder}
    {line : List Nat} {ok : Bool} (h : scanEqual unq d line = some (d1, ok)) :
    d1.err = d.err ∨ ∃ e, d1.err = some (.syntaxErr e) := by
  unfold scanEqual at h
  simp only at h
  split at h
  · cases h; exact Or.inl rfl
  · split at h
    · cases h
    · split at h
      · cases h; exact Or.inl rfl
      · split at h
        · have hf := scanQvalue_err h; exact hf
        · have hf := scanValue_err h; exact hf

theorem scanKey_err {unq : List Nat → Option (List Nat)} {d d1 : Decoder}
    {line : List Nat} {ok : Bool} (h : scanKey unq d line = some (d1, ok)) :
    d1.err = d.err ∨ ∃ e, d1.err = some (.syntaxErr e) := by
  unfold scanKey at h
  simp only at h
  split at h
  · cases h
  · split at h
    · split at h
      · cases h
      · next hs =>
        have hk := setKey_err hs
        split at h
        · cases h; exact Or.inr ⟨_, rfl⟩
        · have he := scanEqual_err h
          rcases he with he | he
          · exact Or.inl (he.trans hk)
          · exact Or.inr he
    · cases h; exact Or.inr ⟨_, rfl⟩
    · split at h
      · cases h
      · next hs => cases h; have hf := setKey_err hs; exact Or.inl hf
    · split at h
      · cases h
      · next hs => cases h; have hf := setKey_err hs; exact Or.inl hf

theorem ScanKeyval_err {unq : List Nat → Option (List Nat)} {d d1 : Decoder} {ok : Bool}
    (h : ScanKeyval unq d = some (d1, ok)) :
    d1.err = d.err ∨ ∃ e, d1.err = some (.syntaxErr e) := by
  unfold ScanKeyval at h
  simp only at h
  split at h
  · cases h; exact Or.inl rfl
  · split at h
    · cases h
    · split at h
      · have hf := scanKey_err h; exact hf
      · cases h; exact Or.inl rfl

theorem ScanKeyval_clear (unq : List Nat → Option (List Nat)) (d : Decoder) :
    ScanKeyval unq d = ScanKeyval unq { d with key := none, value := none } := rfl

/-- C19: suffix invariance.  With no error set and the cursor `p` inside the
line, `ScanKeyval` on the line at cursor `p` and `ScanKeyval` on the suffix
`line[p:]` at cursor 0 (same line number) both return, with the same boolean,
the same `Key()` and `Value()`, final cursors that differ by exactly `p`, and
either no error in both or a `SyntaxError` in both with the same `Msg` and
`Line` and with `Pos` differing by exactly `p`. -/
theorem C19_suffix_invariance (unq : List Nat → Option (List Nat)) (d d2 : Decoder)
    (herr : d.Err = none) (hpos : d.pos ≤ d.s.Bytes.length)
    (herr2 : d2.Err = none) (hpos2 : d2.pos = 0)
    (hline2 : d2.s.Bytes = d.s.Bytes.drop d.pos) (hnum : d2.lineNum = d.lineNum) :
    ∃ d1 d3 ok, ScanKeyval unq d = some (d1, ok) ∧ ScanKeyval unq d2 = some (d3, ok)
      ∧ d1.Key = d3.Key ∧ d1.Value = d3.Value ∧ d1.pos = d3.pos + d.pos
      ∧ ((d1.Err = none ∧ d3.Err = none)
        ∨ ∃ e e3, d1.Err = some (.syntaxErr e) ∧ d3.Err = some (.syntaxErr e3)
            ∧ e.Msg = e3.Msg ∧ e.Line = e3.Line ∧ e.Pos = e3.Pos + d.pos) := by
  obtain ⟨d3, ok, h3, -⟩ := ScanKeyval_classified_at unq d2 herr2 (by omega)
  have hn : (d.s.Bytes.take d.pos).length = d.pos := by simp [List.length_take, hpos]
  have hsc : d.s.Bytes = d.s.Bytes.take d.pos ++ d2.s.Bytes := by
    rw [hline2, List.take_append_drop]
  have hshift := ScanKeyval_shift unq (d.s.Bytes.take d.pos) d.s d2 hsc
  rw [hn, h3] at hshift
  have hd : ({ d with key := none, value := none } : Decoder)
      = { shift d.pos d.s d2 with key := none, value := none } := by
    obtain ⟨pos, key, value, lineNum, s, err⟩ := d
    obtain ⟨pos2, key2, value2, lineNum2, s2, err2⟩ := d2
    simp only [Decoder.Err] at herr herr2 hpos2 hnum
    subst herr herr2 hpos2 hnum
    simp [shift]
  have h1 : ScanKeyval unq d = some (shift d.pos d.s d3, ok) := by
    rw [ScanKeyval_clear unq d, hd, ← ScanKeyval_clear unq (shift d.pos d.s d2), hshift]
    rfl
  refine ⟨shift d.pos d.s d3, d3, ok, h1, h3, rfl, rfl, rfl, ?_⟩
  rcases ScanKeyval_err h3 with he | ⟨e3, he⟩
  · left
    have h0 : d3.err = none := he.trans herr2
    exact ⟨by simp [Decoder.Err, shift, h0], h0⟩
  · right
    exact ⟨{ e3 with Pos := e3.Pos + d.pos }, e3, by simp [Decoder.Err, shift, he, shiftErr],
      he, rfl, rfl, rfl⟩

/-- Witness of C19: the line `a=1 k=a=b` at cursor 3 and its suffix ` k=a=b`. -/
theorem C19_suffix_invariance_witness :
    ∃ d1 d3 ok,
      ScanKeyval unquoteBytes
          { firstRecord [0x61, 0x3d, 0x31, 0x20, 0x6b, 0x3d, 0x61, 0x3d, 0x62] with pos := 3 }
        = some (d1, ok)
      ∧ ScanKeyval unquoteBytes (firstRecord [0x20, 0x6b, 0x3d, 0x61, 0x3d, 0x62])
        = some (d3, ok)
      ∧ d1.Key = d3.Key ∧ d1.Value = d3.Value ∧ d1.pos = d3.pos + 3
      ∧ ((d1.Err = none ∧ d3.Err = none)
        ∨ ∃ e e3, d1.Err = some (.syntaxErr e) ∧ d3.Err = some (.syntaxErr e3)
            ∧ e.Msg = e3.Msg ∧ e.Line = e3.Line ∧ e.Pos = e3.Pos + 3) :=
  C19_suffix_invariance unquoteBytes
    { firstRecord [0x61, 0x3d, 0x31, 0x20, 0x6b, 0x3d, 0x61, 0x3d, 0x62] with pos := 3 }
    (firstRecord [0x20, 0x6b, 0x3d, 0x61, 0x3d, 0x62]) rfl (by decide) rfl rfl rfl rfl

/-! ## The cursor and the current line -/

theorem ScanKeyval_cursor_inside (unq : List Nat → Option (List Nat)) (d d1 : Decoder)
    (ok : Bool) (hpos : d.pos ≤ d.s.Bytes.length) (h : ScanKeyval unq d = some (d1, ok)) :
    d1.pos ≤ d1.s.Bytes.length := by
  have hs := (ScanKeyval_lineNum h).2
  rw [hs]
  cases he : d.err with
  | some e =>
    rw [ScanKeyval_failed unq d e he] at h
    cases h
    exact hpos
  | none =>
    obtain ⟨d2, ok2, h2, hle, -⟩ := ScanKeyval_classified_at unq d he hpos
    rw [h] at h2
    simp only [Option.some.injEq, Prod.mk.injEq] at h2
    obtain ⟨h2a, -⟩ := h2
    subst h2a
    simpa using hle

/-- C15, the code at the failing input: a new decoder over the single line `a`,
after a successful `ScanRecord`, a successful `ScanKeyval` and the `ScanRecord`
that reports the end of the input with no error, has its cursor at 1 while the
line the source exposes is empty, and a further `ScanKeyval` panics on
`line[dec.pos:]`.  The bound `cursor <= len(line)` does hold in a new decoder,
after every `ScanRecord` that returns `true`, and after every `ScanKeyval`
called with the bound in force. -/
theorem C15_cursor_after_end_of_input :
    (∃ d, run unquoteBytes (NewDecoder [[0x61]] none) [.record, .keyval, .record]
          = some (d, [true, true, false])
        ∧ d.Err = none ∧ d.pos = 1 ∧ d.s.Bytes = [] ∧ ¬ d.pos ≤ d.s.Bytes.length
        ∧ ScanKeyval unquoteBytes d = none)
      ∧ (∀ lines failure, (NewDecoder lines failure).pos
          ≤ (NewDecoder lines failure).s.Bytes.length)
      ∧ (∀ d, (ScanRecord d).2 = true → (ScanRecord d).1.pos ≤ (ScanRecord d).1.s.Bytes.length)
      ∧ ∀ (unq : List Nat → Option (List Nat)) (d d1 : Decoder) (ok : Bool),
          d.pos ≤ d.s.Bytes.length → ScanKeyval unq d = some (d1, ok) →
          d1.pos ≤ d1.s.Bytes.length := by
  refine ⟨⟨{ pos := 1, key := some [0x61], value := none, lineNum := 1,
             s := { pending := [], failure := none, token := [], err := none },
             err := none }, by decide, rfl, rfl, rfl, by decide, by decide⟩,
    fun lines failure => Nat.zero_le _, ?_, ?_⟩
  · intro d h
    unfold ScanRecord at h ⊢
    split
    · next he => simp [he] at h
    · next he =>
      split
      · next hs => simp [he, hs] at h
      · simp
  · intro unq d d1 ok hpos h
    exact ScanKeyval_cursor_inside unq d d1 ok hpos h

end Logfmt
